import Mathlib

/-!
# ACL reconciliation engine — verification of `manage_datalake_acls.py`

This file is a shallow embedding of the ACL reconciliation logic of
`src/acls/manage_datalake_acls.py` together with proofs about it.

Modelling conventions:

* Python strings are Lean `String`s.  The source's string primitives
  (`split`, `strip`, `lower`, `upper`, `join`) are re-implemented here by
  structural recursion over the character list, so that every definition
  evaluates inside the kernel; each re-implementation mirrors the Python
  semantics exactly (`''.split('/') = ['']`, `'/'.join` on empty lists, …).
* An ACL text is manipulated by the source only through `split(',')`
  (entries) and `split(':')` (fields of one entry).  Inside the engine an
  ACL value is therefore modelled in its split form: an entry is the list
  of its colon-separated fields (`"group:g1:0:r-x"` ↔
  `["group","g1","0","r-x"]`) and an ACL set is the list of its entries;
  the empty ACL text corresponds to `[]`.  Group object ids and permission
  triplets produced by the engine contain neither `,` nor `:`, under which
  the string tests of the source (`startswith(f"group:{gid}:")`,
  `len(entry.split(':')) >= 4`, f-string construction of a new entry)
  correspond exactly to the list operations used here.
* The codec itself (`parse_acls`, lines 56–67 of the source) is also given
  verbatim at string level, for the claims that speak about raw ACL text.
* The external collaborators (Azure storage and the identity directory)
  are modelled from their interfaces in the specification: the directory
  is a finite map from display names to object ids, the file system is a
  finite map from relative paths to ACL entry lists, and recursive
  ACL commits affect the written path (mode `"set"` replaces the entry
  list, mode `"modify"` merges entry-by-entry on the `scope:identity`
  key).
* One run of `apply_acls_to_path` returns the final file-system state,
  the ordered trace of externally visible actions (backup rows recorded,
  directory creations, ACL writes), and whether the request was skipped.
-/

/-! ## String primitives (Python semantics, kernel-computable) -/

/-- Python `s.split(c)` for a one-character separator, on character lists:
`splitChar c [] = [[]]`, separators produce empty pieces. -/
def splitChar (c : Char) : List Char → List (List Char)
  | [] => [[]]
  | x :: xs =>
    match splitChar c xs with
    | [] => [[]]
    | h :: t => if x = c then [] :: h :: t else (x :: h) :: t

/-- Python `s.split(c)` on strings. -/
def strSplit (c : Char) (s : String) : List String :=
  (splitChar c s.toList).map (fun l => String.mk l)

/-- Python `s.lower()` (ASCII, which covers every input the source compares). -/
def lowerStr (s : String) : String := String.mk (s.toList.map Char.toLower)

/-- Python `s.upper()` (ASCII, which covers every input the source compares). -/
def upperStr (s : String) : String := String.mk (s.toList.map Char.toUpper)

/-- Python `s.strip('/')`: drop every leading and trailing `'/'`. -/
def stripSlashes (s : String) : String :=
  String.mk (((s.toList.dropWhile (· = '/')).reverse.dropWhile (· = '/')).reverse)

/-- Python `'/'.join l`. -/
def joinSlash : List String → String
  | [] => ""
  | [s] => s
  | s :: s' :: rest => s ++ "/" ++ joinSlash (s' :: rest)

/-- `l₁` is an initial run of `l₂` (Python `startswith` on character lists). -/
def charsBeginWith : List Char → List Char → Bool
  | [], _ => true
  | _ :: _, [] => false
  | p :: ps, c :: cs => p == c && charsBeginWith ps cs

/-! ## Python-dict association lists

`parse_acls` builds a Python `dict`; assignment to an existing key updates
the stored value in place (keeping the key's insertion position), a new key
is appended. -/

/-- `d[k] = v` on a Python dict rendered as an association list. -/
def dictInsert (d : List (String × String)) (k v : String) : List (String × String) :=
  if d.any (fun p => p.1 = k) then d.map (fun p => if p.1 = k then (k, v) else p)
  else d ++ [(k, v)]

/-- `d.get(k, '')`. -/
def dictGet (d : List (String × String)) (k : String) : String :=
  ((d.find? (fun p => p.1 = k)).map (·.2)).getD ""

/-- `k in d`. -/
def dictHas (d : List (String × String)) (k : String) : Bool :=
  d.any (fun p => p.1 = k)

/-! ## The ACL codec, verbatim at string level (source lines 48–67) -/

/-- `parse_permission` (source lines 48–54): shorthand → triplet, uppercasing
the input; `R → r-x`, `W → rwx`, anything else defaults to `r-x`. -/
def parse_permission (permission : String) : String :=
  let u := upperStr permission
  if u = "R" then "r-x" else if u = "W" then "rwx" else "r-x"

/-- The filter of `parse_acls` (source line 62): the entry starts with
`group:` and has at least 4 colon-separated fields. -/
def keepsEntry (entry : String) : Bool :=
  charsBeginWith ("group:".toList) entry.toList && decide (4 ≤ (strSplit ':' entry).length)

/-- One step of the `parse_acls` loop (source lines 62–66): a qualifying
entry records field 1 ↦ field 3, anything else is dropped. -/
def parseStep (acc : List (String × String)) (entry : String) : List (String × String) :=
  if keepsEntry entry then
    dictInsert acc ((strSplit ':' entry).getD 1 "") ((strSplit ':' entry).getD 3 "")
  else acc

/-- The loop of `parse_acls` over an already comma-split entry list. -/
def parseEntryList (es : List String) : List (String × String) :=
  es.foldl parseStep []

/-- `parse_acls` (source lines 56–67): empty text gives the empty dict;
otherwise split on `,`, keep the qualifying entries, record field 1 ↦ field 3. -/
def parse_acls (acl_string : String) : List (String × String) :=
  if acl_string = "" then [] else parseEntryList (strSplit ',' acl_string)

/-! ## The engine's data, in split form -/

/-- One ACL entry, as its list of colon-separated fields. -/
abbrev Entry := List String

/-- One path's ACL value, as its list of comma-separated entries
(the empty ACL text is `[]`). -/
abbrev AclEntries := List Entry

/-- The file system of one storage container: the existing relative paths,
each with its current ACL value. -/
abbrev FS := List (String × AclEntries)

/-- The identity directory: display name ↦ Azure AD object id. -/
abbrev Graph := List (String × String)

/-- One validated CSV row (source lines 95–101): all fields are strings;
`force_update` / `force_propagation` are read as `lower() == 'true'`. -/
structure Row where
  environment : String
  storage : String
  path : String
  group_name : String
  permission : String
  force_update : String
  force_propagation : String
deriving DecidableEq

/-- `row['force_update'].lower() == 'true'` (source line 100). -/
def forceUpdateOf (row : Row) : Bool := lowerStr row.force_update = "true"

/-- `row['force_propagation'].lower() == 'true'` (source line 101). -/
def forcePropagationOf (row : Row) : Bool := lowerStr row.force_propagation = "true"

/-- `get_azure_ad_group_object_id` (source lines 25–36): directory lookup by
display name, `none` when the lookup yields nothing. -/
def get_azure_ad_group_object_id (group_name : String) (graph : Graph) : Option String :=
  (graph.find? (fun p => p.1 = group_name)).map (·.2)

/-- `get_environment_group` (source lines 38–46): map the (lowercased)
environment to one of three fixed group names, defaulting to `grupo_dev`,
then resolve that name. -/
def get_environment_group (environment : String) (graph : Graph) : Option String :=
  let env_groups := [("dev", "grupo_dev"), ("pre", "grupo_pre"), ("pro", "grupo_pro")]
  let group_name :=
    ((env_groups.find? (fun p => p.1 = lowerStr environment)).map (·.2)).getD "grupo_dev"
  get_azure_ad_group_object_id group_name graph

/-- `parse_acls` on an ACL value already in split form (the engine reads its
ACL texts only through this dict): an entry qualifies when it has ≥ 4 fields
and its first field is `group` (for a ≥ 4-field entry this is exactly
`startswith('group:')`); field 1 ↦ field 3, Python-dict update semantics. -/
def parseFieldStep (acc : List (String × String)) (e : Entry) : List (String × String) :=
  if 4 ≤ e.length ∧ e.head? = some "group" then dictInsert acc (e.getD 1 "") (e.getD 3 "")
  else acc

/-- The dict `parse_acls` builds, on an ACL value in split form. -/
def parseAclEntries (entries : AclEntries) : List (String × String) :=
  entries.foldl parseFieldStep []

/-- `entry.startswith(f"group:{gid}:")` in split form (source lines 171/199):
the entry has at least 3 fields — i.e. at least the two colons of the tested
text — its first field is `group` and its second is `gid`. -/
def matchesGroupId (gid : String) (e : Entry) : Bool :=
  decide (3 ≤ e.length) && e.head? == some "group" && e.getD 1 "" == gid

/-- The updated ACL value of source lines 167–172 (and, with `--x`, lines
195–200): keep the entries not matching the group id, append the new
`group:{gid}:{aclPerm}` entry; an empty current value gives just the new
entry. -/
def updatedAclsFor (gid aclPerm : String) (current : AclEntries) : AclEntries :=
  if current = [] then [["group", gid, aclPerm]]
  else
    let existing := current.filter (fun a => ! matchesGroupId gid a)
    if existing = [] then [["group", gid, aclPerm]] else existing ++ [["group", gid, aclPerm]]

/-! ## The external storage interface -/

/-- Look a path up in the file system. -/
def fsGet (fs : FS) (p : String) : Option AclEntries :=
  (fs.find? (fun q => q.1 = p)).map (·.2)

/-- Store a value for a path (replacing any previous binding). -/
def fsSet (fs : FS) (p : String) (v : AclEntries) : FS :=
  (p, v) :: fs.filter (fun q => ! (q.1 == p))

/-- The `scope:identity` key of an entry: its first two fields. -/
def keyOf (e : Entry) : List String := e.take 2

/-- Merge new entries into a current ACL value, entry by entry: each new
entry replaces every current entry with the same `scope:identity` key and
is appended. -/
def mergeEntries (cur new : AclEntries) : AclEntries :=
  new.foldl (fun acc e => acc.filter (fun a => ! (keyOf a == keyOf e)) ++ [e]) cur

/-- Modelled from the spec: `setAccessControlRecursive(path, AclSet, mode)`
of the external storage interface (§6) — mode `"set"` (recursive-overwrite)
replaces the path's ACL value by the given one, mode `"modify"`
(recursive-merge) merges the given entries into the current value by
`scope:identity` key. -/
def applyWrite (fs : FS) (p : String) (acl : AclEntries) (mode : String) : FS :=
  if mode = "set" then fsSet fs p acl
  else fsSet fs p (mergeEntries ((fsGet fs p).getD []) acl)

/-! ## Path arithmetic (source lines 122–141) -/

/-- `path.strip('/').split('/')` (source line 122). -/
def pathSegs (path : String) : List String := strSplit '/' (stripSlashes path)

/-- `path_parts[0] if path_parts else 'data'` (source line 123). -/
def containerOf (path : String) : String :=
  if pathSegs path = [] then "data" else (pathSegs path).headD ""

/-- `'/'.join(path_parts[1:]) if len(path_parts) > 1 else ''` (source line 124). -/
def relativePathOf (path : String) : String :=
  if 1 < (pathSegs path).length then joinSlash (pathSegs path).tail else ""

/-- Source lines 137–141: for more than two segments, the joins
`'/'.join(path_parts[1:i+1])` for `i in range(1, len(path_parts)-1)`;
otherwise the empty list. -/
def parentPathsOf (path : String) : List String :=
  if 2 < (pathSegs path).length then
    (List.range ((pathSegs path).length - 2)).map
      (fun j => joinSlash ((pathSegs path).tail.take (j + 1)))
  else []

/-- The ancestor list exactly as the specification words it (§4.4 step 2):
`[join(segments[1:i+1]) for i in 1..len(segments)-2]`, with no case split on
the number of segments. -/
def ancestorPathsSpec (path : String) : List String :=
  (List.range' 1 ((pathSegs path).length - 2)).map
    (fun i => joinSlash ((pathSegs path).tail.take i))

/-! ## One reconciliation run -/

/-- One externally visible action of a run, in trace order. -/
inductive Ev where
  /-- Backup rows `(group_id, permissions)` recorded for an existing path
  (source lines 77–87): one row per raw `group:`-scoped ≥ 4-field entry. -/
  | backup (p : String) (rows : List (String × String))
  /-- The path was confirmed non-existent during backup (source line 88–89). -/
  | backupSkip (p : String)
  /-- `create_directory` (source lines 158, 189). -/
  | create (p : String)
  /-- `set_access_control_recursive` (source lines 173–176, 201–204). -/
  | write (p : String) (acl : AclEntries) (mode : String)
deriving DecidableEq

/-- The path an action refers to. -/
def evPath : Ev → String
  | .backup p _ => p
  | .backupSkip p => p
  | .create p => p
  | .write p _ _ => p

/-- Backup events (rows recorded, or non-existence confirmed). -/
def isBackupEv : Ev → Bool
  | .backup _ _ => true
  | .backupSkip _ => true
  | _ => false

/-- Write events. -/
def isWriteEv : Ev → Bool
  | .write _ _ _ => true
  | _ => false

/-- The rows `backup_acls_to_csv` records for one existing path's ACL value
(source lines 82–87): one `(group_id, permissions)` row per raw entry that
starts with `group:` and has at least 4 fields — no deduplication. -/
def backupRows (t : AclEntries) : List (String × String) :=
  t.filterMap (fun e =>
    if 4 ≤ e.length ∧ e.head? = some "group" then some (e.getD 1 "", e.getD 3 "") else none)

/-- The one backup event of a single path: its rows if it exists, otherwise
the confirmation that it does not. -/
def backupEvOf (fs : FS) (p : String) : Ev :=
  match fsGet fs p with
  | some t => Ev.backup p (backupRows t)
  | none => Ev.backupSkip p

/-- `paths_to_backup` (source line 142): the relative target path, when it
is nonempty, followed by the parent paths. -/
def pathsToBackupOf (path : String) : List String :=
  if relativePathOf path ≠ "" then relativePathOf path :: parentPathsOf path
  else parentPathsOf path

/-- The backup block (source lines 144–147): one backup event per path to
back up, computed against the pre-mutation file system. -/
def backupEvsOf (fs : FS) (path : String) : List Ev :=
  if pathsToBackupOf path ≠ [] then (pathsToBackupOf path).map (backupEvOf fs) else []

/-- `should_update` (source line 164): `force_update or not current_perm or
(permission == 'W' and current_perm != 'rwx')` — note the *raw* permission
string is compared to `'W'`. -/
def should_update (gid permRaw : String) (fu : Bool) (current : AclEntries) : Prop :=
  fu = true ∨ dictGet (parseAclEntries current) gid = ""
    ∨ (permRaw = "W" ∧ dictGet (parseAclEntries current) gid ≠ "rwx")

instance (gid permRaw : String) (fu : Bool) (current : AclEntries) :
    Decidable (should_update gid permRaw fu current) := by
  unfold should_update; infer_instance

/-- The target-path block (source lines 149–179): read the current ACLs,
creating the directory (empty ACLs) when absent; decide per
`should_update`; on update, commit the updated value with mode `set` when
`force_propagation` else `modify`. -/
def targetPhase (gid aclPerm permRaw : String) (fu fp : Bool) (relP : String) (fs : FS) :
    FS × List Ev :=
  let read := fsGet fs relP
  let fs1 := match read with | some _ => fs | none => fsSet fs relP []
  let evs1 : List Ev := match read with | some _ => [] | none => [Ev.create relP]
  let current_acls := read.getD []
  if should_update gid permRaw fu current_acls then
    let updated_acls := updatedAclsFor gid aclPerm current_acls
    let mode := if fp then "set" else "modify"
    (applyWrite fs1 relP updated_acls mode, evs1 ++ [Ev.write relP updated_acls mode])
  else (fs1, evs1)

/-- One iteration of the parent loop (source lines 182–207): read the
parent's ACLs, creating it (empty ACLs) when absent; when the environment
group has no entry in the parsed dict or `force_update` holds, commit the
merged traversal-only (`--x`) entry with mode `set`, unconditionally. -/
def parentStep (envId : String) (fu : Bool) (st : FS × List Ev) (pp : String) :
    FS × List Ev :=
  let (fs, evs) := st
  let read := fsGet fs pp
  let fs1 := match read with | some _ => fs | none => fsSet fs pp []
  let evs1 : List Ev := match read with | some _ => ([] : List Ev) | none => [Ev.create pp]
  let parent_acls := read.getD []
  if ¬ dictHas (parseAclEntries parent_acls) envId = true ∨ fu = true then
    let updated := updatedAclsFor envId "--x" parent_acls
    (applyWrite fs1 pp updated "set", evs ++ evs1 ++ [Ev.write pp updated "set"])
  else (fs1, evs ++ evs1)

/-- The result of one run: final file system, ordered action trace, and
whether the request was skipped before touching storage. -/
structure RunResult where
  fs : FS
  events : List Ev
  skipped : Bool
deriving DecidableEq

/-- `apply_acls_to_path` (source lines 93–212) for one request row against
one container's file system: resolve the group (skip on failure), derive the
path chain, resolve the environment group (skip on failure), back up the
target and parent paths, reconcile the target, then each parent in order. -/
def apply_acls_to_path (row : Row) (graph : Graph) (fs : FS) : RunResult :=
  match get_azure_ad_group_object_id row.group_name graph with
  | none => ⟨fs, [], true⟩
  | some gid =>
    let relative_path := relativePathOf row.path
    let acl_permission := parse_permission row.permission
    match get_environment_group row.environment graph with
    | none => ⟨fs, [], true⟩
    | some envId =>
      let parent_paths := parentPathsOf row.path
      let backupEvs := backupEvsOf fs row.path
      let fu := forceUpdateOf row
      let fp := forcePropagationOf row
      let (fs2, tEvs) := targetPhase gid acl_permission row.permission fu fp relative_path fs
      let (fs3, pEvs) := parent_paths.foldl (parentStep envId fu) (fs2, [])
      ⟨fs3, backupEvs ++ tEvs ++ pEvs, false⟩

/-! ## Derived functions used by the proofs -/

/-- The current entries not matching the group id — the list comprehension
of source lines 171 and 199. -/
def dropGroupId (gid : String) (l : AclEntries) : AclEntries :=
  l.filter (fun a => ! matchesGroupId gid a)

/-- The `scope:identity` keys of an ACL value. -/
def keysOf (l : AclEntries) : List (List String) := l.map keyOf

/-- Keep, for every `scope:identity` key, only its last entry. -/
def dedupKeysLast : AclEntries → AclEntries
  | [] => []
  | e :: t => (if keyOf e ∈ keysOf t then [] else [e]) ++ dedupKeysLast t

/-- The ACL value stored for the target path after the target block, as a
function of the value read (`none` = the path did not exist). -/
def targetVal (gid aclPerm permRaw : String) (fu fp : Bool) (cur : Option AclEntries) :
    AclEntries :=
  let current := cur.getD []
  if should_update gid permRaw fu current then
    (if fp then updatedAclsFor gid aclPerm current
     else mergeEntries current (updatedAclsFor gid aclPerm current))
  else current

/-- The ACL value stored for a parent path after its loop iteration, as a
function of the value read (`none` = the path did not exist). -/
def parentVal (envId : String) (fu : Bool) (cur : Option AclEntries) : AclEntries :=
  let current := cur.getD []
  if ¬ dictHas (parseAclEntries current) envId = true ∨ fu = true then
    updatedAclsFor envId "--x" current
  else current

/-- The trace of the target block, as a function of the value read. -/
def targetEvs (gid aclPerm permRaw : String) (fu fp : Bool) (relP : String)
    (cur : Option AclEntries) : List Ev :=
  (match cur with | some _ => [] | none => [Ev.create relP]) ++
  (if should_update gid permRaw fu (cur.getD []) then
    [Ev.write relP (updatedAclsFor gid aclPerm (cur.getD []))
      (if fp then "set" else "modify")]
   else [])

/-- The trace of one parent iteration, as a function of the value read. -/
def parentEvsOf (envId : String) (fu : Bool) (pp : String) (cur : Option AclEntries) :
    List Ev :=
  (match cur with | some _ => [] | none => [Ev.create pp]) ++
  (if ¬ dictHas (parseAclEntries (cur.getD [])) envId = true ∨ fu = true then
    [Ev.write pp (updatedAclsFor envId "--x" (cur.getD [])) "set"]
   else [])

/-! ## The AclSet identity invariant -/

/-- The group identities carried by an ACL value: the second field of every
`group`-scoped entry. -/
def groupIds (l : AclEntries) : List String :=
  (l.filter (fun e => e.head? == some "group")).filterMap (fun e => e[1]?)

/-- At most one entry per `(scope = group, identityId)` pair. -/
def nodupGroupIds (l : AclEntries) : Prop := (groupIds l).Nodup

/-- Every `group`-scoped entry has at least its three components
`scope`, `identityId`, `permission` — the shape of every entry a genuine
`AclSet` contains. -/
def wfGroupEntries (l : AclEntries) : Prop :=
  ∀ e ∈ l, e.head? = some "group" → 3 ≤ e.length

instance (l : AclEntries) : Decidable (wfGroupEntries l) := by
  unfold wfGroupEntries; infer_instance

instance (l : AclEntries) : Decidable (nodupGroupIds l) := by
  unfold nodupGroupIds; infer_instance

/-! ## Concrete scenario data for the closed theorems -/

/-- A directory resolving the request group `gn ↦ g1` and the `dev`
environment group `grupo_dev ↦ e1`. -/
def gnGraph : Graph := [("gn", "g1"), ("grupo_dev", "e1")]

/-- A request row for path `data/t` with raw permission string `"w"`. -/
def lowercaseWRow : Row := ⟨"dev", "sa", "data/t", "gn", "w", "false", "false"⟩

/-- A Read request row for path `data/t`. -/
def readRow : Row := ⟨"dev", "sa", "data/t", "gn", "R", "false", "false"⟩

/-- A request row whose path has a single segment, so the target relative
path is the container root `""`. -/
def rootPathRow : Row := ⟨"dev", "sa", "c1", "gn", "R", "false", "false"⟩

/-- A target where the requested group already holds the parseable `r-x`. -/
def fsWithRx : FS := [("t", [["group", "g1", "0", "r-x"]])]

/-- A target that exists with an empty ACL set. -/
def fsWithEmptyAcl : FS := [("t", [])]

/-- A container whose root exists and carries a `group`-scope entry for an
unrelated identity. -/
def fsRootOther : FS := [("", [["group", "other", "0", "rwx"]])]

/-! # Theorems -/

/-! ## The codec (C7, C10) -/

/-- A rejected entry leaves the parse accumulator unchanged. -/
theorem parseStep_skip (acc : List (String × String)) (entry : String)
    (h : ¬ keepsEntry entry = true) : parseStep acc entry = acc := by
  simp [parseStep, h]

/-- The `parse_acls` loop ignores exactly the entries its filter rejects. -/
theorem parseEntryList_filter (es : List String) :
    parseEntryList es = parseEntryList (es.filter keepsEntry) := by
  unfold parseEntryList
  generalize ([] : List (String × String)) = acc
  induction es generalizing acc with
  | nil => rfl
  | cons e t ih =>
    by_cases h : keepsEntry e
    · rw [List.filter_cons_of_pos h]
      exact ih (parseStep acc e)
    · rw [List.filter_cons_of_neg h, List.foldl_cons, parseStep_skip acc e h]
      exact ih acc

/-- C7: `parse` of the empty string is the empty set, and `parse` keeps
exactly the comma-separated entries that begin with the `group` scope token
and have at least 4 colon-delimited fields, dropping all others; on
`"group:g1:0:r-x,garbage,group:g2:0:rwx"` it yields exactly `g1 ↦ r-x` and
`g2 ↦ rwx`. -/
theorem c7_parse_robustness :
    parse_acls "" = []
    ∧ parse_acls "group:g1:0:r-x,garbage,group:g2:0:rwx" = [("g1", "r-x"), ("g2", "rwx")]
    ∧ ∀ es : List String, parseEntryList es = parseEntryList (es.filter keepsEntry) :=
  ⟨by decide, by decide, parseEntryList_filter⟩

/-- C10: the write-escalation test compares the raw permission string
case-sensitively to `'W'` while the permission triplet is computed from the
uppercased string: `parse_permission "w" = "rwx"` yet `"w" ≠ "W"`, so the
`"w"` request with `forceUpdate` false issues no update against a target
where the group already holds `r-x` (the state is untouched), while the
same request against a target with no entry for the group writes `rwx`. -/
theorem c10_case_sensitive_escalation_test :
    parse_permission "w" = "rwx"
    ∧ "w" ≠ "W"
    ∧ (∀ e ∈ (apply_acls_to_path lowercaseWRow gnGraph fsWithRx).events, isWriteEv e = false)
    ∧ (apply_acls_to_path lowercaseWRow gnGraph fsWithRx).fs = fsWithRx
    ∧ Ev.write "t" [["group", "g1", "rwx"]] "modify"
        ∈ (apply_acls_to_path lowercaseWRow gnGraph fsWithEmptyAcl).events :=
  ⟨by decide, by decide, by decide, by decide, by decide⟩

/-! ## Skip on resolution failure (C9) -/

/-- C9: when resolving the request's group name or the environment group
fails, the request terminates as skipped: the file system is untouched and
no action (backup, directory creation or ACL write) is emitted. -/
theorem c9_resolution_failure_skips (row : Row) (graph : Graph) (fs : FS)
    (h : get_azure_ad_group_object_id row.group_name graph = none
       ∨ get_environment_group row.environment graph = none) :
    (apply_acls_to_path row graph fs).skipped = true
    ∧ (apply_acls_to_path row graph fs).fs = fs
    ∧ (apply_acls_to_path row graph fs).events = [] := by
  rcases h with h | h
  · simp [apply_acls_to_path, h]
  · cases hg : get_azure_ad_group_object_id row.group_name graph with
    | none => simp [apply_acls_to_path, hg]
    | some gid => simp [apply_acls_to_path, hg, h]

/-- Witness for C9 at a concrete unresolvable row. -/
theorem c9_resolution_failure_skips_witness :
    (get_azure_ad_group_object_id "gn" [] = none
       ∨ get_environment_group "dev" [] = none)
    ∧ ((apply_acls_to_path readRow [] []).skipped = true
       ∧ (apply_acls_to_path readRow [] []).fs = []
       ∧ (apply_acls_to_path readRow [] []).events = []) :=
  ⟨by decide, c9_resolution_failure_skips _ _ _ (by decide)⟩

/-! ## The merge primitive keeps group identities unique (C3) -/

/-- The two branches of the source's update collapse to: filtered current
entries plus the new entry. -/
theorem updatedAclsFor_eq (gid aclPerm : String) (current : AclEntries) :
    updatedAclsFor gid aclPerm current
      = dropGroupId gid current ++ [["group", gid, aclPerm]] := by
  unfold updatedAclsFor dropGroupId
  by_cases h : current = []
  · simp [h]
  · simp only [h, if_false]
    by_cases h2 : current.filter (fun a => ! matchesGroupId gid a) = [] <;> simp [h2]

/-- A ≥ 3-field entry exposes its first three fields. -/
theorem entry_shape3 (e : Entry) (h : 3 ≤ e.length) : ∃ a b c t, e = a :: b :: c :: t := by
  match e with
  | a :: b :: c :: t => exact ⟨a, b, c, t, rfl⟩
  | [] | [_] | [_, _] => simp at h

/-- `groupIds` distributes over append. -/
theorem groupIds_append (a b : AclEntries) :
    groupIds (a ++ b) = groupIds a ++ groupIds b := by
  simp [groupIds, List.filter_append, List.filterMap_append]

/-- One merge preserves well-formedness and identity uniqueness. -/
theorem updatedAclsFor_preserves (gid perm : String) (l : AclEntries)
    (hwf : wfGroupEntries l) (hnd : nodupGroupIds l) :
    wfGroupEntries (updatedAclsFor gid perm l) ∧ nodupGroupIds (updatedAclsFor gid perm l) := by
  rw [updatedAclsFor_eq]
  constructor
  · intro e he hgr
    rcases List.mem_append.mp he with he | he
    · exact hwf e (List.mem_of_mem_filter he) hgr
    · simp only [List.mem_singleton] at he
      subst he; simp
  · have hsub : List.Sublist (groupIds (dropGroupId gid l)) (groupIds l) := by
      unfold groupIds dropGroupId
      exact ((List.filter_sublist l).filter _).filterMap _
    have hnd' : (groupIds (dropGroupId gid l)).Nodup := hnd.sublist hsub
    have hnew : groupIds [["group", gid, perm]] = [gid] := by simp [groupIds]
    unfold nodupGroupIds
    rw [groupIds_append, hnew]
    refine List.Nodup.append hnd' (List.nodup_singleton gid) ?_
    intro x hx hx'
    simp only [List.mem_singleton] at hx'
    unfold groupIds at hx
    rcases List.mem_filterMap.mp hx with ⟨e, he, hsnd⟩
    rcases List.mem_filter.mp he with ⟨he₁, he₂⟩
    rcases List.mem_filter.mp he₁ with ⟨hel, hegr⟩
    have hlen : 3 ≤ e.length := hwf e hel (by simpa using he₂)
    rcases entry_shape3 e hlen with ⟨a, b, c, t, rfl⟩
    have hhead : a = "group" := by simpa using he₂
    have hb : b = gid := by rw [hx'] at hsnd; simpa using hsnd
    have hm : matchesGroupId gid (a :: b :: c :: t) = true := by
      subst hhead hb; simp [matchesGroupId]
    simp [hm] at hegr

/-- C3: any sequence of merges into an `AclSet` (each merge removing every
existing entry for the target group identity before appending the new one)
keeps at most one entry per `(scope = group, identityId)` pair, for any
initial set whose `group`-scoped entries are well-formed and already
satisfy the invariant. -/
theorem c3_merge_identity_invariant (ops : List (String × String)) (init : AclEntries)
    (hwf : wfGroupEntries init) (hnd : nodupGroupIds init) :
    nodupGroupIds (ops.foldl (fun s op => updatedAclsFor op.1 op.2 s) init) := by
  induction ops generalizing init with
  | nil => exact hnd
  | cons op t ih =>
    rcases updatedAclsFor_preserves op.1 op.2 init hwf hnd with ⟨hwf', hnd'⟩
    exact ih _ hwf' hnd'

/-- Witness for C3 at a concrete merge sequence. -/
theorem c3_merge_identity_invariant_witness :
    (wfGroupEntries [["group", "z", "0", "rwx"]] ∧ nodupGroupIds [["group", "z", "0", "rwx"]])
    ∧ nodupGroupIds ([("a", "rwx"), ("b", "r-x"), ("a", "r-x")].foldl
        (fun s op => updatedAclsFor op.1 op.2 s) [["group", "z", "0", "rwx"]]) :=
  ⟨⟨by decide, by decide⟩,
   c3_merge_identity_invariant _ _ (by decide) (by decide)⟩

/-! ## File-system characterizations -/

/-- Dropping every binding of key `p` does not change lookups of `q ≠ p`. -/
theorem find?_filter_ne (fs : FS) (p q : String) (h : q ≠ p) :
    (fs.filter (fun r => ! (r.1 == p))).find? (fun r => r.1 = q)
      = fs.find? (fun r => r.1 = q) := by
  induction fs with
  | nil => rfl
  | cons r t ih =>
    by_cases hr : r.1 = p
    · have h1 : (! (r.1 == p)) = false := by simp [hr]
      have h2 : (decide (r.1 = q)) = false := by simp [hr]; exact fun hq => h (hq ▸ hr ▸ rfl)
      simp only [List.filter_cons, h1, if_false, List.find?_cons, h2, Bool.false_eq_true]
      exact ih
    · have h1 : (! (r.1 == p)) = true := by simp [hr]
      simp only [List.filter_cons, h1, if_true, List.find?_cons]
      cases hq : decide (r.1 = q) with
      | true => rfl
      | false => exact ih

/-- Lookup after a store. -/
theorem fsGet_fsSet (fs : FS) (p : String) (v : AclEntries) (q : String) :
    fsGet (fsSet fs p v) q = if q = p then some v else fsGet fs q := by
  unfold fsGet fsSet
  by_cases h : q = p
  · subst h; simp
  · simp only [List.find?_cons, h, if_false]
    have : (decide ((p, v).1 = q)) = false := by simp; exact fun hq => h hq.symm
    rw [this]
    rw [find?_filter_ne fs p q h]

/-- Lookup after a committed write. -/
theorem fsGet_applyWrite (fs : FS) (p : String) (acl : AclEntries) (mode : String)
    (q : String) :
    fsGet (applyWrite fs p acl mode) q
      = if q = p then
          some (if mode = "set" then acl else mergeEntries ((fsGet fs p).getD []) acl)
        else fsGet fs q := by
  unfold applyWrite
  by_cases hm : mode = "set" <;> simp [hm, fsGet_fsSet]

/-- The target block stores `targetVal` of the value read at the target and
touches no other path. -/
theorem targetPhase_fs (gid aclPerm permRaw : String) (fu fp : Bool) (relP : String)
    (fs : FS) (q : String) :
    fsGet ((targetPhase gid aclPerm permRaw fu fp relP fs).1) q
      = if q = relP then some (targetVal gid aclPerm permRaw fu fp (fsGet fs relP))
        else fsGet fs q := by
  unfold targetPhase targetVal
  cases hr : fsGet fs relP with
  | some t =>
    by_cases hsu : should_update gid permRaw fu t
    · by_cases hfp : fp <;>
        simp [hr, hsu, hfp, fsGet_applyWrite]
    · simp only [hr, Option.getD_some, hsu, if_false]
      by_cases hq : q = relP <;> simp [hq, hr]
  | none =>
    by_cases hsu : should_update gid permRaw fu []
    · by_cases hfp : fp <;> by_cases hq : q = relP <;>
        simp [hr, hsu, hfp, hq, fsGet_applyWrite, fsGet_fsSet]
    · by_cases hq : q = relP <;> simp [hr, hsu, hq, fsGet_fsSet]

/-- The target block emits `targetEvs` of the value read. -/
theorem targetPhase_events (gid aclPerm permRaw : String) (fu fp : Bool) (relP : String)
    (fs : FS) :
    (targetPhase gid aclPerm permRaw fu fp relP fs).2
      = targetEvs gid aclPerm permRaw fu fp relP (fsGet fs relP) := by
  unfold targetPhase targetEvs
  cases hr : fsGet fs relP with
  | some t => by_cases hsu : should_update gid permRaw fu t <;> simp [hr, hsu]
  | none => by_cases hsu : should_update gid permRaw fu [] <;> simp [hr, hsu]

/-- One parent iteration stores `parentVal` of the value read at its path and
touches no other path. -/
theorem parentStep_fs (envId : String) (fu : Bool) (fs : FS) (evs : List Ev)
    (pp : String) (q : String) :
    fsGet ((parentStep envId fu (fs, evs) pp).1) q
      = if q = pp then some (parentVal envId fu (fsGet fs pp)) else fsGet fs q := by
  unfold parentStep parentVal
  cases hr : fsGet fs pp with
  | some t =>
    by_cases hc : dictHas (parseAclEntries t) envId = false ∨ fu = true
    · simp [hr, hc, fsGet_applyWrite]
    · by_cases hq : q = pp <;> simp [hr, hc, hq]
  | none =>
    by_cases hc : dictHas (parseAclEntries []) envId = false ∨ fu = true
    · by_cases hq : q = pp <;> simp [hr, hc, hq, fsGet_applyWrite, fsGet_fsSet]
    · by_cases hq : q = pp <;> simp [hr, hc, hq, fsGet_fsSet]

/-- One parent iteration appends `parentEvsOf` of the value read. -/
theorem parentStep_events (envId : String) (fu : Bool) (fs : FS) (evs : List Ev)
    (pp : String) :
    (parentStep envId fu (fs, evs) pp).2
      = evs ++ parentEvsOf envId fu pp (fsGet fs pp) := by
  unfold parentStep parentEvsOf
  cases hr : fsGet fs pp with
  | some t =>
    by_cases hc : dictHas (parseAclEntries t) envId = false ∨ fu = true <;> simp [hr, hc]
  | none =>
    by_cases hc : dictHas (parseAclEntries []) envId = false ∨ fu = true <;> simp [hr, hc]

/-! ## The parent loop -/

/-- The parent loop does not touch paths outside its list. -/
theorem parentFold_fs_notMem (envId : String) (fu : Bool) (l : List String)
    (fs : FS) (evs : List Ev) (q : String) (h : q ∉ l) :
    fsGet ((l.foldl (parentStep envId fu) (fs, evs)).1) q = fsGet fs q := by
  induction l generalizing fs evs with
  | nil => rfl
  | cons p t ih =>
    rw [List.foldl_cons]
    have h1 : q ∉ t := fun hq => h (List.mem_cons_of_mem p hq)
    have h2 : q ≠ p := fun hq => h (hq ▸ List.mem_cons_self p t)
    calc fsGet ((t.foldl (parentStep envId fu)
            ((parentStep envId fu (fs, evs) p).1, (parentStep envId fu (fs, evs) p).2)).1) q
        = fsGet ((parentStep envId fu (fs, evs) p).1) q := ih _ _ h1
      _ = fsGet fs q := by rw [parentStep_fs]; simp [h2]

/-- Over pairwise-distinct paths, the parent loop stores `parentVal` of the
value each path had when the loop started. -/
theorem parentFold_fs_mem (envId : String) (fu : Bool) (l : List String)
    (fs : FS) (evs : List Ev) (q : String) (hnd : l.Nodup) (h : q ∈ l) :
    fsGet ((l.foldl (parentStep envId fu) (fs, evs)).1) q
      = some (parentVal envId fu (fsGet fs q)) := by
  induction l generalizing fs evs with
  | nil => cases h
  | cons p t ih =>
    rw [List.foldl_cons]
    rcases List.mem_cons.mp h with rfl | hq
    · have hqt : q ∉ t := (List.nodup_cons.mp hnd).1
      calc fsGet ((t.foldl (parentStep envId fu)
              ((parentStep envId fu (fs, evs) q).1, (parentStep envId fu (fs, evs) q).2)).1) q
          = fsGet ((parentStep envId fu (fs, evs) q).1) q := parentFold_fs_notMem _ _ _ _ _ _ hqt
        _ = some (parentVal envId fu (fsGet fs q)) := by rw [parentStep_fs]; simp
    · have hnd' : t.Nodup := (List.nodup_cons.mp hnd).2
      have hqp : q ≠ p := fun he => (List.nodup_cons.mp hnd).1 (he ▸ hq)
      calc fsGet ((t.foldl (parentStep envId fu)
              ((parentStep envId fu (fs, evs) p).1, (parentStep envId fu (fs, evs) p).2)).1) q
          = some (parentVal envId fu (fsGet ((parentStep envId fu (fs, evs) p).1) q)) :=
            ih _ _ hnd' hq
        _ = some (parentVal envId fu (fsGet fs q)) := by rw [parentStep_fs]; simp [hqp]

/-- Every action of one parent iteration refers to that parent's path. -/
theorem evPath_parentEvsOf (envId : String) (fu : Bool) (pp : String)
    (cur : Option AclEntries) (e : Ev) (h : e ∈ parentEvsOf envId fu pp cur) :
    evPath e = pp := by
  unfold parentEvsOf at h
  rcases List.mem_append.mp h with h1 | h1
  · cases cur with
    | some t => simp at h1
    | none => simp at h1; simp [h1, evPath]
  · split at h1
    · simp at h1; simp [h1, evPath]
    · simp at h1

/-- Every action the parent loop emits was already accumulated or refers to
one of its paths. -/
theorem parentFold_events_mem (envId : String) (fu : Bool) (l : List String)
    (fs : FS) (evs : List Ev) (e : Ev)
    (h : e ∈ (l.foldl (parentStep envId fu) (fs, evs)).2) : e ∈ evs ∨ evPath e ∈ l := by
  induction l generalizing fs evs with
  | nil => exact Or.inl h
  | cons p t ih =>
    rw [List.foldl_cons] at h
    rcases ih ((parentStep envId fu (fs, evs) p).1) ((parentStep envId fu (fs, evs) p).2) h
      with he | he
    · rw [parentStep_events] at he
      rcases List.mem_append.mp he with h1 | h1
      · exact Or.inl h1
      · exact Or.inr (List.mem_cons.mpr (Or.inl (evPath_parentEvsOf _ _ _ _ _ h1)))
    · exact Or.inr (List.mem_cons.mpr (Or.inr he))

/-- Events already accumulated survive the parent loop. -/
theorem parentFold_events_sub (envId : String) (fu : Bool) (l : List String)
    (fs : FS) (evs : List Ev) (e : Ev) (h : e ∈ evs) :
    e ∈ (l.foldl (parentStep envId fu) (fs, evs)).2 := by
  induction l generalizing fs evs with
  | nil => exact h
  | cons p t ih =>
    rw [List.foldl_cons]
    have h2 : e ∈ (parentStep envId fu (fs, evs) p).2 := by
      rw [parentStep_events]; exact List.mem_append.mpr (Or.inl h)
    exact ih ((parentStep envId fu (fs, evs) p).1) ((parentStep envId fu (fs, evs) p).2) h2

/-! ## Projections of one full run -/

/-- The final file system of an unskipped run. -/
theorem apply_fs_eq (row : Row) (graph : Graph) (fs : FS) (gid envId : String)
    (hg : get_azure_ad_group_object_id row.group_name graph = some gid)
    (he : get_environment_group row.environment graph = some envId) :
    (apply_acls_to_path row graph fs).fs
      = ((parentPathsOf row.path).foldl (parentStep envId (forceUpdateOf row))
          ((targetPhase gid (parse_permission row.permission) row.permission
              (forceUpdateOf row) (forcePropagationOf row) (relativePathOf row.path) fs).1,
           [])).1 := by
  unfold apply_acls_to_path
  rw [hg, he]

/-- The trace of an unskipped run. -/
theorem apply_events_eq (row : Row) (graph : Graph) (fs : FS) (gid envId : String)
    (hg : get_azure_ad_group_object_id row.group_name graph = some gid)
    (he : get_environment_group row.environment graph = some envId) :
    (apply_acls_to_path row graph fs).events
      = backupEvsOf fs row.path
        ++ (targetPhase gid (parse_permission row.permission) row.permission
              (forceUpdateOf row) (forcePropagationOf row) (relativePathOf row.path) fs).2
        ++ ((parentPathsOf row.path).foldl (parentStep envId (forceUpdateOf row))
            ((targetPhase gid (parse_permission row.permission) row.permission
                (forceUpdateOf row) (forcePropagationOf row) (relativePathOf row.path) fs).1,
             [])).2 := by
  unfold apply_acls_to_path
  rw [hg, he]

/-! ## Distinctness of the derived paths -/

/-- Joining a strictly shorter nonempty initial run of segments gives a
strictly shorter path string. -/
theorem length_joinSlash_take_lt (l : List String) :
    ∀ i, 0 < i → i < l.length → (joinSlash (l.take i)).length < (joinSlash l).length := by
  induction l with
  | nil => intro i _ hl; simp at hl
  | cons x t ih =>
    intro i hi hl
    match t, i with
    | [], i =>
      simp at hl
      omega
    | y :: t', 1 =>
      show (joinSlash [x]).length < (joinSlash (x :: y :: t')).length
      have h1 : joinSlash (x :: y :: t') = x ++ "/" ++ joinSlash (y :: t') := rfl
      have h2 : joinSlash [x] = x := rfl
      rw [h1, h2, String.length_append, String.length_append]
      have h3 : ("/" : String).length = 1 := rfl
      omega
    | y :: t', j + 2 =>
      have h1 : (x :: y :: t').take (j + 2) = x :: ((y :: t').take (j + 1)) := rfl
      have h2 : (y :: t').take (j + 1) = y :: t'.take j := rfl
      have h3 : joinSlash (x :: y :: t'.take j) = x ++ "/" ++ joinSlash (y :: t'.take j) := rfl
      have h4 : joinSlash (x :: y :: t') = x ++ "/" ++ joinSlash (y :: t') := rfl
      rw [h1, h2, h3, h4, String.length_append, String.length_append,
        String.length_append, String.length_append]
      have h5 : (joinSlash ((y :: t').take (j + 1))).length < (joinSlash (y :: t')).length := by
        refine ih (j + 1) (by omega) ?_
        simp only [List.length_cons] at hl ⊢
        omega
      rw [h2] at h5
      omega

/-- Every parent path is strictly shorter than the relative target path. -/
theorem length_parent_lt_relative (path : String) (pp : String)
    (h : pp ∈ parentPathsOf path) : pp.length < (relativePathOf path).length := by
  unfold parentPathsOf at h
  by_cases h2 : 2 < (pathSegs path).length
  · rw [if_pos h2] at h
    rcases List.mem_map.mp h with ⟨j, hj, rfl⟩
    rw [List.mem_range] at hj
    have hrel : relativePathOf path = joinSlash (pathSegs path).tail := by
      unfold relativePathOf
      rw [if_pos (by omega)]
    rw [hrel]
    refine length_joinSlash_take_lt _ (j + 1) (by omega) ?_
    simp only [List.length_tail]
    omega
  · rw [if_neg h2] at h
    cases h

/-- The relative target path is none of the parent paths. -/
theorem relativePathOf_notMem_parentPathsOf (path : String) :
    relativePathOf path ∉ parentPathsOf path := by
  intro h
  exact absurd (length_parent_lt_relative path _ h) (by omega)

/-- The parent paths are pairwise distinct. -/
theorem parentPathsOf_nodup (path : String) : (parentPathsOf path).Nodup := by
  unfold parentPathsOf
  by_cases h2 : 2 < (pathSegs path).length
  · rw [if_pos h2]
    refine (List.nodup_range _).map_on ?_
    intro j hj k hk heq
    rw [List.mem_range] at hj hk
    by_contra hne
    have key : ∀ a b : Nat, a < b → b < (pathSegs path).length - 2 →
        (joinSlash ((pathSegs path).tail.take (a + 1))).length
          < (joinSlash ((pathSegs path).tail.take (b + 1))).length := by
      intro a b hab hb
      have h1 : (pathSegs path).tail.take (a + 1)
          = ((pathSegs path).tail.take (b + 1)).take (a + 1) := by
        rw [List.take_take]
        congr 1
        omega
      rw [h1]
      refine length_joinSlash_take_lt _ (a + 1) (by omega) ?_
      rw [List.length_take]
      simp only [List.length_tail]
      omega
    rcases Nat.lt_or_ge j k with hjk | hjk
    · have := key j k hjk hk
      rw [heq] at this
      omega
    · have hkj : k < j := by omega
      have := key k j hkj hj
      rw [heq] at this
      omega
  · rw [if_neg h2]
    exact List.nodup_nil

/-! ## What each block's writes look like -/

/-- A write in the target block's trace is the target write: it goes to the
target path, carries the updated value and the propagation-dependent mode,
and certifies that the update policy fired. -/
theorem write_mem_targetEvs (gid aclPerm permRaw : String) (fu fp : Bool) (relP : String)
    (cur : Option AclEntries) (p : String) (a : AclEntries) (m : String)
    (h : Ev.write p a m ∈ targetEvs gid aclPerm permRaw fu fp relP cur) :
    p = relP ∧ a = updatedAclsFor gid aclPerm (cur.getD [])
      ∧ m = (if fp = true then "set" else "modify")
      ∧ should_update gid permRaw fu (cur.getD []) := by
  unfold targetEvs at h
  rcases List.mem_append.mp h with h1 | h1
  · cases cur <;> simp at h1
  · by_cases hsu : should_update gid permRaw fu (cur.getD [])
    · rw [if_pos hsu] at h1
      simp at h1
      exact ⟨h1.1, h1.2.1, h1.2.2, hsu⟩
    · rw [if_neg hsu] at h1
      simp at h1

/-- When the update policy fires, the target block's trace contains the
target write. -/
theorem targetEvs_write_of_su (gid aclPerm permRaw : String) (fu fp : Bool) (relP : String)
    (cur : Option AclEntries) (hsu : should_update gid permRaw fu (cur.getD [])) :
    Ev.write relP (updatedAclsFor gid aclPerm (cur.getD []))
        (if fp = true then "set" else "modify")
      ∈ targetEvs gid aclPerm permRaw fu fp relP cur := by
  unfold targetEvs
  rw [if_pos hsu]
  exact List.mem_append.mpr (Or.inr (List.mem_singleton.mpr rfl))

/-- A write in one parent iteration's trace goes to that parent's path,
carries the merged traversal value, and always uses mode `set`. -/
theorem write_mem_parentEvsOf (envId : String) (fu : Bool) (pp : String)
    (cur : Option AclEntries) (p : String) (a : AclEntries) (m : String)
    (h : Ev.write p a m ∈ parentEvsOf envId fu pp cur) :
    p = pp ∧ a = updatedAclsFor envId "--x" (cur.getD []) ∧ m = "set" := by
  unfold parentEvsOf at h
  rcases List.mem_append.mp h with h1 | h1
  · cases cur <;> simp at h1
  · by_cases hc : ¬ dictHas (parseAclEntries (cur.getD [])) envId = true ∨ fu = true
    · rw [if_pos hc] at h1
      simp at h1
      exact ⟨h1.1, h1.2.1, h1.2.2⟩
    · rw [if_neg hc] at h1
      simp at h1

/-- Every action of the parent loop was accumulated before, or belongs to
the iteration of one of its paths. -/
theorem parentFold_events_cases (envId : String) (fu : Bool) (l : List String)
    (fs : FS) (evs : List Ev) (e : Ev)
    (h : e ∈ (l.foldl (parentStep envId fu) (fs, evs)).2) :
    e ∈ evs ∨ ∃ pp ∈ l, ∃ cur, e ∈ parentEvsOf envId fu pp cur := by
  induction l generalizing fs evs with
  | nil => exact Or.inl h
  | cons p t ih =>
    rw [List.foldl_cons] at h
    rcases ih ((parentStep envId fu (fs, evs) p).1) ((parentStep envId fu (fs, evs) p).2) h
      with he | he
    · rw [parentStep_events] at he
      rcases List.mem_append.mp he with h1 | h1
      · exact Or.inl h1
      · exact Or.inr ⟨p, List.mem_cons_self p t, fsGet fs p, h1⟩
    · rcases he with ⟨pp, hpp, cur, hcur⟩
      exact Or.inr ⟨pp, List.mem_cons_of_mem p hpp, cur, hcur⟩

/-- Everything the backup block emits is a backup event. -/
theorem isBackupEv_mem_backupEvsOf (fs : FS) (path : String) (e : Ev)
    (h : e ∈ backupEvsOf fs path) : isBackupEv e = true := by
  unfold backupEvsOf at h
  split at h
  · rcases List.mem_map.mp h with ⟨p, _, rfl⟩
    unfold backupEvOf
    cases fsGet fs p <;> rfl
  · simp at h

/-- The backup event of a path refers to that path. -/
theorem evPath_backupEvOf (fs : FS) (p : String) : evPath (backupEvOf fs p) = p := by
  unfold backupEvOf
  cases fsGet fs p <;> rfl

/-- Every path in the backup list gets a backup event. -/
theorem backupEvsOf_covers (fs : FS) (path : String) (p : String)
    (h : p ∈ pathsToBackupOf path) :
    ∃ e ∈ backupEvsOf fs path, evPath e = p := by
  unfold backupEvsOf
  rw [if_pos]
  · exact ⟨backupEvOf fs p, List.mem_map_of_mem _ h, evPath_backupEvOf fs p⟩
  · exact List.ne_nil_of_mem h

/-! ## Propagation modes (C5) and the update policy (C1) -/

/-- C5: every committed write of a run either targets the relative path and
uses propagation mode `set` (overwrite) exactly when `force_propagation`
holds and `modify` (merge) otherwise, or targets an ancestor path and uses
mode `set` unconditionally. -/
theorem c5_propagation_modes (row : Row) (graph : Graph) (fs : FS) (gid envId : String)
    (hg : get_azure_ad_group_object_id row.group_name graph = some gid)
    (he : get_environment_group row.environment graph = some envId) :
    ∀ p a m, Ev.write p a m ∈ (apply_acls_to_path row graph fs).events →
      (p = relativePathOf row.path →
        m = (if forcePropagationOf row = true then "set" else "modify"))
      ∧ (p ∈ parentPathsOf row.path → m = "set") := by
  intro p a m h
  rw [apply_events_eq row graph fs gid envId hg he] at h
  rcases List.mem_append.mp h with h1 | h1
  · rcases List.mem_append.mp h1 with h2 | h2
    · have := isBackupEv_mem_backupEvsOf fs row.path _ h2
      simp [isBackupEv] at this
    · rw [targetPhase_events] at h2
      rcases write_mem_targetEvs _ _ _ _ _ _ _ _ _ _ h2 with ⟨hp, _, hm, _⟩
      refine ⟨fun _ => hm, fun hpar => ?_⟩
      exact absurd (hp ▸ hpar) (relativePathOf_notMem_parentPathsOf row.path)
  · rcases parentFold_events_cases _ _ _ _ _ _ h1 with h2 | ⟨pp, hpp, cur, h2⟩
    · simp at h2
    · rcases write_mem_parentEvsOf _ _ _ _ _ _ _ h2 with ⟨hp, _, hm⟩
      subst hp
      refine ⟨fun hrel => ?_, fun _ => hm⟩
      exact absurd (hrel ▸ hpp) (relativePathOf_notMem_parentPathsOf row.path)

/-- Witness for C5: a concrete run containing both a target write (mode
`modify`) and an ancestor write (mode `set`). -/
theorem c5_propagation_modes_witness :
    get_azure_ad_group_object_id "gn" gnGraph = some "g1"
    ∧ get_environment_group "dev" gnGraph = some "e1"
    ∧ ∀ p a m,
        Ev.write p a m
          ∈ (apply_acls_to_path ⟨"dev", "sa", "data/team/reports", "gn", "W", "false", "false"⟩
              gnGraph []).events →
        (p = relativePathOf "data/team/reports" →
          m = (if forcePropagationOf
                  ⟨"dev", "sa", "data/team/reports", "gn", "W", "false", "false"⟩ = true
               then "set" else "modify"))
        ∧ (p ∈ parentPathsOf "data/team/reports" → m = "set") :=
  ⟨by decide, by decide, c5_propagation_modes _ gnGraph [] "g1" "e1" (by decide) (by decide)⟩

/-- C1: a run issues a write to the target path exactly when the update
policy fires: `forceUpdate` holds, or the parsed current ACLs give the
resolved group id no triplet, or the raw requested permission is `W` and
that triplet is not `rwx`; in every other case no target write appears in
the trace. -/
theorem c1_update_policy (row : Row) (graph : Graph) (fs : FS) (gid envId : String)
    (hg : get_azure_ad_group_object_id row.group_name graph = some gid)
    (he : get_environment_group row.environment graph = some envId) :
    (∃ a m, Ev.write (relativePathOf row.path) a m ∈ (apply_acls_to_path row graph fs).events)
      ↔ (forceUpdateOf row = true
          ∨ dictGet (parseAclEntries ((fsGet fs (relativePathOf row.path)).getD [])) gid = ""
          ∨ (row.permission = "W"
             ∧ dictGet (parseAclEntries ((fsGet fs (relativePathOf row.path)).getD [])) gid
                 ≠ "rwx")) := by
  have hiff : (forceUpdateOf row = true
      ∨ dictGet (parseAclEntries ((fsGet fs (relativePathOf row.path)).getD [])) gid = ""
      ∨ (row.permission = "W"
         ∧ dictGet (parseAclEntries ((fsGet fs (relativePathOf row.path)).getD [])) gid
             ≠ "rwx"))
      = should_update gid row.permission (forceUpdateOf row)
          ((fsGet fs (relativePathOf row.path)).getD []) := rfl
  rw [hiff]
  constructor
  · rintro ⟨a, m, h⟩
    rw [apply_events_eq row graph fs gid envId hg he] at h
    rcases List.mem_append.mp h with h1 | h1
    · rcases List.mem_append.mp h1 with h2 | h2
      · have := isBackupEv_mem_backupEvsOf fs row.path _ h2
        simp [isBackupEv] at this
      · rw [targetPhase_events] at h2
        exact (write_mem_targetEvs _ _ _ _ _ _ _ _ _ _ h2).2.2.2
    · rcases parentFold_events_cases _ _ _ _ _ _ h1 with h2 | ⟨pp, hpp, cur, h2⟩
      · simp at h2
      · rcases write_mem_parentEvsOf _ _ _ _ _ _ _ h2 with ⟨hp, _, _⟩
        exact absurd (hp ▸ hpp) (relativePathOf_notMem_parentPathsOf row.path)
  · intro hsu
    refine ⟨updatedAclsFor gid (parse_permission row.permission)
        ((fsGet fs (relativePathOf row.path)).getD []),
      (if forcePropagationOf row = true then "set" else "modify"), ?_⟩
    rw [apply_events_eq row graph fs gid envId hg he]
    refine List.mem_append.mpr (Or.inl (List.mem_append.mpr (Or.inr ?_)))
    rw [targetPhase_events]
    exact targetEvs_write_of_su _ _ _ _ _ _ _ hsu

/-- Witness for C1: the policy fires on an empty target (no current entry),
and the target write is present. -/
theorem c1_update_policy_witness :
    get_azure_ad_group_object_id "gn" gnGraph = some "g1"
    ∧ get_environment_group "dev" gnGraph = some "e1"
    ∧ ((∃ a m, Ev.write (relativePathOf "data/t") a m
          ∈ (apply_acls_to_path readRow gnGraph fsWithEmptyAcl).events)
        ↔ (forceUpdateOf readRow = true
            ∨ dictGet (parseAclEntries
                ((fsGet fsWithEmptyAcl (relativePathOf "data/t")).getD [])) "g1" = ""
            ∨ (readRow.permission = "W"
               ∧ dictGet (parseAclEntries
                   ((fsGet fsWithEmptyAcl (relativePathOf "data/t")).getD [])) "g1" ≠ "rwx"))) :=
  ⟨by decide, by decide,
   c1_update_policy readRow gnGraph fsWithEmptyAcl "g1" "e1" (by decide) (by decide)⟩

/-! ## The path chain and ancestor traversal (C4) -/

/-- Splitting never yields the empty list. -/
theorem splitChar_ne_nil (c : Char) (l : List Char) : splitChar c l ≠ [] := by
  cases l with
  | nil => simp [splitChar]
  | cons x xs =>
    unfold splitChar
    cases h : splitChar c xs with
    | nil => simp
    | cons h' t' => by_cases hx : x = c <;> simp [hx]

/-- A path always has at least one segment. -/
theorem pathSegs_ne_nil (path : String) : pathSegs path ≠ [] := by
  unfold pathSegs strSplit
  intro h
  exact splitChar_ne_nil '/' (stripSlashes path).toList (List.map_eq_nil_iff.mp h)

/-- The relative target path is the join of all segments after the first,
with no case split. -/
theorem relativePathOf_eq_join (path : String) :
    relativePathOf path = joinSlash (pathSegs path).tail := by
  unfold relativePathOf
  by_cases h : 1 < (pathSegs path).length
  · rw [if_pos h]
  · rw [if_neg h]
    have hne := pathSegs_ne_nil path
    have h1 : (pathSegs path).length = 1 := by
      have := List.length_pos.mpr hne
      omega
    have h2 : (pathSegs path).tail = [] := by
      have := List.length_tail (pathSegs path)
      rw [h1] at this
      exact List.eq_nil_of_length_eq_zero (by omega)
    rw [h2]
    rfl

/-- The parent-path list computed by the source is exactly the ancestor
list as the specification words it. -/
theorem parentPathsOf_eq_spec (path : String) :
    parentPathsOf path = ancestorPathsSpec path := by
  unfold parentPathsOf ancestorPathsSpec
  by_cases h : 2 < (pathSegs path).length
  · rw [if_pos h, List.range'_eq_map_range, List.map_map]
    refine List.map_congr_left ?_
    intro j _
    simp [Nat.add_comm]
  · rw [if_neg h]
    have h1 : (pathSegs path).length - 2 = 0 := by omega
    rw [h1]
    rfl

/-- After an ancestor's iteration, its stored value carries the traversal
entry or the parsed dict already had the environment group. -/
theorem parentVal_covers (envId : String) (fu : Bool) (cur : Option AclEntries) :
    ["group", envId, "--x"] ∈ parentVal envId fu cur
      ∨ dictHas (parseAclEntries (parentVal envId fu cur)) envId = true := by
  unfold parentVal
  by_cases hc : ¬ dictHas (parseAclEntries (cur.getD [])) envId = true ∨ fu = true
  · rw [if_pos hc, updatedAclsFor_eq]
    exact Or.inl (List.mem_append.mpr (Or.inr (List.mem_singleton.mpr rfl)))
  · rw [if_neg hc]
    push_neg at hc
    exact Or.inr (by simpa using hc.1)

/-- C4: the container is the first path segment, the relative target path is
the join of the remaining segments, the ancestor list is exactly the proper
prefixes `join(segments[1:i+1])` for `i` in `1..len-2` — so it is empty for
at most two segments and has exactly `len - 2` elements otherwise — and
after a run every ancestor directory holds a traversal entry for the
environment group or already had an entry for it. -/
theorem c4_path_chain (row : Row) (graph : Graph) (fs : FS) (gid envId : String)
    (hg : get_azure_ad_group_object_id row.group_name graph = some gid)
    (he : get_environment_group row.environment graph = some envId) :
    pathSegs row.path ≠ []
    ∧ containerOf row.path = (pathSegs row.path).headD ""
    ∧ relativePathOf row.path = joinSlash (pathSegs row.path).tail
    ∧ parentPathsOf row.path = ancestorPathsSpec row.path
    ∧ (parentPathsOf row.path).length = (pathSegs row.path).length - 2
    ∧ ∀ pp ∈ parentPathsOf row.path,
        ∃ entries, fsGet (apply_acls_to_path row graph fs).fs pp = some entries
          ∧ (["group", envId, "--x"] ∈ entries
             ∨ dictHas (parseAclEntries entries) envId = true) := by
  refine ⟨pathSegs_ne_nil row.path, ?_, relativePathOf_eq_join row.path,
    parentPathsOf_eq_spec row.path, ?_, ?_⟩
  · unfold containerOf
    rw [if_neg (pathSegs_ne_nil row.path)]
  · unfold parentPathsOf
    by_cases h : 2 < (pathSegs row.path).length
    · rw [if_pos h]
      simp
    · rw [if_neg h]
      simp
      omega
  · intro pp hpp
    refine ⟨parentVal envId (forceUpdateOf row)
        (fsGet ((targetPhase gid (parse_permission row.permission) row.permission
            (forceUpdateOf row) (forcePropagationOf row) (relativePathOf row.path) fs).1) pp),
      ?_, parentVal_covers envId (forceUpdateOf row) _⟩
    rw [apply_fs_eq row graph fs gid envId hg he]
    exact parentFold_fs_mem _ _ _ _ _ _ (parentPathsOf_nodup row.path) hpp

/-- Witness for C4 at the end-to-end scenario path. -/
theorem c4_path_chain_witness :
    get_azure_ad_group_object_id "gn" gnGraph = some "g1"
    ∧ get_environment_group "dev" gnGraph = some "e1"
    ∧ (pathSegs "data/team/reports" ≠ []
      ∧ containerOf "data/team/reports" = (pathSegs "data/team/reports").headD ""
      ∧ relativePathOf "data/team/reports" = joinSlash (pathSegs "data/team/reports").tail
      ∧ parentPathsOf "data/team/reports" = ancestorPathsSpec "data/team/reports"
      ∧ (parentPathsOf "data/team/reports").length = (pathSegs "data/team/reports").length - 2
      ∧ ∀ pp ∈ parentPathsOf "data/team/reports",
          ∃ entries,
            fsGet (apply_acls_to_path
                ⟨"dev", "sa", "data/team/reports", "gn", "W", "false", "false"⟩
                gnGraph []).fs pp = some entries
            ∧ (["group", "e1", "--x"] ∈ entries
               ∨ dictHas (parseAclEntries entries) "e1" = true)) :=
  ⟨by decide, by decide,
   c4_path_chain ⟨"dev", "sa", "data/team/reports", "gn", "W", "false", "false"⟩
     gnGraph [] "g1" "e1" (by decide) (by decide)⟩

/-! ## Backup before write (C8) -/

/-- C8 counterexample: for the single-segment path `c1` the relative target
path is `""`, the backup list is empty, and the run writes the container
root — whose pre-mutation ACLs carry a `group`-scope entry and which was
not confirmed non-existent — without any backup event at all: the trace is
exactly one write. -/
theorem c8_backup_counterexample :
    relativePathOf rootPathRow.path = ""
    ∧ fsGet fsRootOther "" ≠ none
    ∧ backupRows [["group", "other", "0", "rwx"]] ≠ []
    ∧ (apply_acls_to_path rootPathRow gnGraph fsRootOther).events
        = [Ev.write "" [["group", "other", "0", "rwx"], ["group", "g1", "r-x"]] "modify"]
    ∧ ∀ e ∈ (apply_acls_to_path rootPathRow gnGraph fsRootOther).events,
        isBackupEv e = false :=
  ⟨by decide, by decide, by decide, by decide, by decide⟩

/-- C8 amended: when the relative target path is nonempty, the trace starts
with a block of backup events (rows recorded, or non-existence confirmed,
against the pre-mutation state), and every ACL write in the trace is to a
path covered by one of those backup events. -/
theorem c8_backup_before_write (row : Row) (graph : Graph) (fs : FS) (gid envId : String)
    (hg : get_azure_ad_group_object_id row.group_name graph = some gid)
    (he : get_environment_group row.environment graph = some envId)
    (hrel : relativePathOf row.path ≠ "") :
    ∃ bs rest, (apply_acls_to_path row graph fs).events = bs ++ rest
      ∧ (∀ e ∈ bs, isBackupEv e = true)
      ∧ ∀ p a m, Ev.write p a m ∈ (apply_acls_to_path row graph fs).events →
          ∃ e ∈ bs, evPath e = p := by
  refine ⟨backupEvsOf fs row.path,
    (targetPhase gid (parse_permission row.permission) row.permission
        (forceUpdateOf row) (forcePropagationOf row) (relativePathOf row.path) fs).2
      ++ ((parentPathsOf row.path).foldl (parentStep envId (forceUpdateOf row))
          ((targetPhase gid (parse_permission row.permission) row.permission
              (forceUpdateOf row) (forcePropagationOf row) (relativePathOf row.path) fs).1,
           [])).2, ?_, ?_, ?_⟩
  · rw [apply_events_eq row graph fs gid envId hg he, List.append_assoc]
  · exact fun e he' => isBackupEv_mem_backupEvsOf fs row.path e he'
  · intro p a m h
    have hptb : pathsToBackupOf row.path = relativePathOf row.path :: parentPathsOf row.path := by
      unfold pathsToBackupOf
      rw [if_pos hrel]
    rw [apply_events_eq row graph fs gid envId hg he] at h
    rcases List.mem_append.mp h with h1 | h1
    · rcases List.mem_append.mp h1 with h2 | h2
      · have := isBackupEv_mem_backupEvsOf fs row.path _ h2
        simp [isBackupEv] at this
      · rw [targetPhase_events] at h2
        rcases write_mem_targetEvs _ _ _ _ _ _ _ _ _ _ h2 with ⟨hp, _, _, _⟩
        subst hp
        exact backupEvsOf_covers fs row.path _ (hptb ▸ List.mem_cons_self _ _)
    · rcases parentFold_events_cases _ _ _ _ _ _ h1 with h2 | ⟨pp, hpp, cur, h2⟩
      · simp at h2
      · rcases write_mem_parentEvsOf _ _ _ _ _ _ _ h2 with ⟨hp, _, _⟩
        subst hp
        exact backupEvsOf_covers fs row.path _ (hptb ▸ List.mem_cons_of_mem _ hpp)

/-- Witness for C8 (amended) on the end-to-end scenario. -/
theorem c8_backup_before_write_witness :
    get_azure_ad_group_object_id "gn" gnGraph = some "g1"
    ∧ get_environment_group "dev" gnGraph = some "e1"
    ∧ relativePathOf "data/team/reports" ≠ ""
    ∧ ∃ bs rest,
        (apply_acls_to_path ⟨"dev", "sa", "data/team/reports", "gn", "W", "false", "false"⟩
            gnGraph []).events = bs ++ rest
        ∧ (∀ e ∈ bs, isBackupEv e = true)
        ∧ ∀ p a m,
            Ev.write p a m
              ∈ (apply_acls_to_path
                  ⟨"dev", "sa", "data/team/reports", "gn", "W", "false", "false"⟩
                  gnGraph []).events →
            ∃ e ∈ bs, evPath e = p :=
  ⟨by decide, by decide, by decide,
   c8_backup_before_write ⟨"dev", "sa", "data/team/reports", "gn", "W", "false", "false"⟩
     gnGraph [] "g1" "e1" (by decide) (by decide) (by decide)⟩

/-! ## Algebra of the merge semantics -/

/-- The key of the engine's new entry. -/
theorem keyOf_new_entry (gid perm : String) : keyOf ["group", gid, perm] = ["group", gid] := rfl

/-- The new entry matches its own group id. -/
theorem matchesGroupId_new (gid perm : String) :
    matchesGroupId gid ["group", gid, perm] = true := by
  simp [matchesGroupId]

/-- A matching entry has key `["group", gid]`. -/
theorem keyOf_of_matches (gid : String) (e : Entry) (h : matchesGroupId gid e = true) :
    keyOf e = ["group", gid] := by
  have hlen : 3 ≤ e.length := by
    unfold matchesGroupId at h
    simp at h
    exact h.1.1
  rcases entry_shape3 e hlen with ⟨a, b, c, t, rfl⟩
  unfold matchesGroupId at h
  simp at h
  simp [keyOf, h.1, h.2]

/-- Merging is: drop the current entries whose key recurs in the new ones,
then keep only the last new entry of each key. -/
theorem mergeEntries_eq (new cur : AclEntries) :
    mergeEntries cur new
      = cur.filter (fun a => ! decide (keyOf a ∈ keysOf new)) ++ dedupKeysLast new := by
  induction new generalizing cur with
  | nil => simp [mergeEntries, dedupKeysLast, keysOf]
  | cons e t ih =>
    show mergeEntries (cur.filter (fun a => ! (keyOf a == keyOf e)) ++ [e]) t = _
    rw [ih]
    rw [List.filter_append, List.filter_filter]
    have hsingle : [e].filter (fun a => ! decide (keyOf a ∈ keysOf t))
        = if keyOf e ∈ keysOf t then [] else [e] := by
      by_cases h : keyOf e ∈ keysOf t <;> simp [h]
    rw [hsingle]
    have hpred : ∀ a : Entry,
        ((! (keyOf a == keyOf e)) && (! decide (keyOf a ∈ keysOf t)))
          = ! decide (keyOf a ∈ keysOf (e :: t)) := by
      intro a
      have : keysOf (e :: t) = keyOf e :: keysOf t := rfl
      rw [this]
      by_cases h1 : keyOf a = keyOf e <;> by_cases h2 : keyOf a ∈ keysOf t <;>
        simp [h1, h2]
    have hfilter : cur.filter
          (fun a => (! decide (keyOf a ∈ keysOf t)) && (! (keyOf a == keyOf e)))
        = cur.filter (fun a => ! decide (keyOf a ∈ keysOf (e :: t))) := by
      refine List.filter_congr ?_
      intro a _
      rw [Bool.and_comm]
      exact hpred a
    rw [hfilter]
    show _ = cur.filter (fun a => ! decide (keyOf a ∈ keysOf (e :: t)))
        ++ ((if keyOf e ∈ keysOf t then [] else [e]) ++ dedupKeysLast t)
    rw [List.append_assoc]

/-- Deduplicating after appending one entry filters its key out of the
deduplicated front and appends it. -/
theorem dedupKeysLast_append_single (xs : AclEntries) (e : Entry) :
    dedupKeysLast (xs ++ [e])
      = (dedupKeysLast xs).filter (fun a => ! (keyOf a == keyOf e)) ++ [e] := by
  induction xs with
  | nil => simp [dedupKeysLast, keysOf]
  | cons x t ih =>
    show (if keyOf x ∈ keysOf (t ++ [e]) then [] else [x]) ++ dedupKeysLast (t ++ [e]) = _
    have hks : keysOf (t ++ [e]) = keysOf t ++ [keyOf e] := by simp [keysOf]
    rw [hks, ih]
    show _ = ((if keyOf x ∈ keysOf t then [] else [x]) ++ dedupKeysLast t).filter
        (fun a => ! (keyOf a == keyOf e)) ++ [e]
    rw [List.filter_append]
    by_cases h1 : keyOf x = keyOf e <;> by_cases h2 : keyOf x ∈ keysOf t <;>
      simp [h1, h2]

/-- Deduplicated lists keep a subset of the entries. -/
theorem mem_of_mem_dedupKeysLast (l : AclEntries) (e : Entry)
    (h : e ∈ dedupKeysLast l) : e ∈ l := by
  induction l with
  | nil => exact absurd h (by simp [dedupKeysLast])
  | cons x t ih =>
    unfold dedupKeysLast at h
    rcases List.mem_append.mp h with h1 | h1
    · split at h1
      · simp at h1
      · simp at h1
        simp [h1]
    · exact List.mem_cons_of_mem x (ih h1)

/-- Deduplication leaves pairwise-distinct keys. -/
theorem keysOf_dedupKeysLast_nodup (l : AclEntries) :
    (keysOf (dedupKeysLast l)).Nodup := by
  induction l with
  | nil => simp [dedupKeysLast, keysOf]
  | cons x t ih =>
    unfold dedupKeysLast
    by_cases h : keyOf x ∈ keysOf t
    · simpa [h] using ih
    · rw [if_neg h]
      show (keysOf (x :: dedupKeysLast t)).Nodup
      have hx : keyOf x ∉ keysOf (dedupKeysLast t) := by
        intro hc
        rcases List.mem_map.mp hc with ⟨e, he, heq⟩
        exact h (heq ▸ List.mem_map_of_mem keyOf (mem_of_mem_dedupKeysLast t e he))
      exact List.nodup_cons.mpr ⟨hx, ih⟩

/-- A list with pairwise-distinct keys is already deduplicated. -/
theorem dedupKeysLast_of_nodup_keys (l : AclEntries) (h : (keysOf l).Nodup) :
    dedupKeysLast l = l := by
  induction l with
  | nil => rfl
  | cons x t ih =>
    have h1 : keyOf x ∉ keysOf t := (List.nodup_cons.mp h).1
    have h2 : (keysOf t).Nodup := (List.nodup_cons.mp h).2
    unfold dedupKeysLast
    rw [if_neg h1, ih h2]
    rfl

/-- A list all of whose keys recur in `U` is emptied by the merge filter. -/
theorem filter_keys_covered (cur : AclEntries) (U : AclEntries)
    (h : ∀ a ∈ cur, keyOf a ∈ keysOf U) :
    cur.filter (fun a => ! decide (keyOf a ∈ keysOf U)) = [] := by
  rw [List.filter_eq_nil_iff]
  intro a ha
  simp [h a ha]

/-- Every current key recurs in the updated entry list. -/
theorem keys_covered_by_updated (gid perm : String) (cur : AclEntries) :
    ∀ a ∈ cur, keyOf a ∈ keysOf (updatedAclsFor gid perm cur) := by
  intro a ha
  rw [updatedAclsFor_eq]
  have hks : keysOf (dropGroupId gid cur ++ [["group", gid, perm]])
      = keysOf (dropGroupId gid cur) ++ [["group", gid]] := by
    simp [keysOf, keyOf]
  rw [hks]
  by_cases hm : matchesGroupId gid a = true
  · exact List.mem_append.mpr (Or.inr (by simp [keyOf_of_matches gid a hm]))
  · refine List.mem_append.mpr (Or.inl ?_)
    refine List.mem_map_of_mem keyOf ?_
    unfold dropGroupId
    refine List.mem_filter.mpr ⟨ha, ?_⟩
    simp [hm]

/-! ## What the parse dict sees after a write -/

/-- Updating bindings of a different key is invisible to `find?`. -/
theorem find?_map_update_ne (d : List (String × String)) (k v g : String) (h : g ≠ k) :
    (d.map (fun p => if p.1 = k then (k, v) else p)).find? (fun p => p.1 = g)
      = d.find? (fun p => p.1 = g) := by
  induction d with
  | nil => rfl
  | cons p t ih =>
    by_cases hp : p.1 = k
    · have h1 : (if p.1 = k then (k, v) else p) = (k, v) := if_pos hp
      have h2 : (decide ((k, v).1 = g)) = false := by simp; exact fun hc => h hc.symm
      have h3 : (decide (p.1 = g)) = false := by
        simp
        intro hc
        exact h (hc ▸ hp ▸ rfl)
      simp only [List.map_cons, h1, List.find?_cons, h2, h3]
      exact ih
    · have h1 : (if p.1 = k then (k, v) else p) = p := if_neg hp
      simp only [List.map_cons, h1, List.find?_cons]
      cases hg : decide (p.1 = g) with
      | true => rfl
      | false => exact ih

/-- Appending a binding of a different key is invisible to `find?`. -/
theorem find?_append_single_ne (d : List (String × String)) (k v g : String) (h : g ≠ k) :
    (d ++ [(k, v)]).find? (fun p => p.1 = g) = d.find? (fun p => p.1 = g) := by
  induction d with
  | nil =>
    simp only [List.nil_append, List.find?_cons, List.find?_nil]
    have h2 : (decide ((k, v).1 = g)) = false := by simp; exact fun hc => h hc.symm
    rw [h2]
  | cons p t ih =>
    simp only [List.cons_append, List.find?_cons]
    cases hg : decide (p.1 = g) with
    | true => rfl
    | false => exact ih

/-- Inserting under a different key does not change a lookup. -/
theorem dictGet_dictInsert_ne (d : List (String × String)) (k v g : String) (h : g ≠ k) :
    dictGet (dictInsert d k v) g = dictGet d g := by
  unfold dictGet dictInsert
  by_cases hany : d.any (fun p => p.1 = k)
  · rw [if_pos hany, find?_map_update_ne d k v g h]
  · rw [if_neg hany, find?_append_single_ne d k v g h]

/-- Membership under a different key is unchanged by an insert. -/
theorem dictHas_dictInsert_ne (d : List (String × String)) (k v g : String) (h : g ≠ k) :
    dictHas (dictInsert d k v) g = dictHas d g := by
  unfold dictHas dictInsert
  by_cases hany : d.any (fun p => p.1 = k)
  · rw [if_pos hany]
    induction d with
    | nil => rfl
    | cons p t iha =>
      by_cases hp : p.1 = k
      · have h1 : (if p.1 = k then (k, v) else p) = (k, v) := if_pos hp
        have h2 : (decide ((k, v).1 = g)) = false := by simp; exact fun hc => h hc.symm
        have h3 : (decide (p.1 = g)) = false := by
          simp
          intro hc
          exact h (hc ▸ hp ▸ rfl)
        simp only [List.map_cons, h1, List.any_cons, h2, h3, Bool.false_or]
        exact map_any_eq t
      · have h1 : (if p.1 = k then (k, v) else p) = p := if_neg hp
        simp only [List.map_cons, h1, List.any_cons]
        rw [map_any_eq t]
  · rw [if_neg hany]
    have h2 : (decide ((k, v).1 = g)) = false := by simp; exact fun hc => h hc.symm
    simp [List.any_append, h2]
where
  map_any_eq : ∀ t : List (String × String),
      ((t.map (fun p => if p.1 = k then (k, v) else p)).any fun p => decide (p.1 = g))
        = t.any fun p => decide (p.1 = g) := by
    intro t
    induction t with
    | nil => rfl
    | cons p t ih =>
      by_cases hp : p.1 = k
      · have h1 : (if p.1 = k then (k, v) else p) = (k, v) := if_pos hp
        have h2 : (decide ((k, v).1 = g)) = false := by simp; exact fun hc => h hc.symm
        have h3 : (decide (p.1 = g)) = false := by
          simp
          intro hc
          exact h (hc ▸ hp ▸ rfl)
        simp only [List.map_cons, h1, List.any_cons, h2, h3, Bool.false_or]
        exact ih
      · have h1 : (if p.1 = k then (k, v) else p) = p := if_neg hp
        simp only [List.map_cons, h1, List.any_cons]
        rw [ih]

/-- Folding the parse step over entries that never record the key `g`
leaves its lookup and membership unchanged. -/
theorem parse_foldl_ne (l : AclEntries) (g : String) (d : List (String × String))
    (h : ∀ e ∈ l, 4 ≤ e.length → e.head? = some "group" → e.getD 1 "" ≠ g) :
    dictGet (l.foldl parseFieldStep d) g = dictGet d g
    ∧ dictHas (l.foldl parseFieldStep d) g = dictHas d g := by
  induction l generalizing d with
  | nil => exact ⟨rfl, rfl⟩
  | cons e t ih =>
    rw [List.foldl_cons]
    have hstep : dictGet (parseFieldStep d e) g = dictGet d g
        ∧ dictHas (parseFieldStep d e) g = dictHas d g := by
      unfold parseFieldStep
      by_cases hc : 4 ≤ e.length ∧ e.head? = some "group"
      · rw [if_pos hc]
        have hne : g ≠ e.getD 1 "" :=
          fun hg => h e (List.mem_cons_self e t) hc.1 hc.2 hg.symm
        exact ⟨dictGet_dictInsert_ne d _ _ g hne, dictHas_dictInsert_ne d _ _ g hne⟩
      · rw [if_neg hc]
        exact ⟨rfl, rfl⟩
    have ht := ih (parseFieldStep d e) (fun e' he' => h e' (List.mem_cons_of_mem e he'))
    exact ⟨ht.1.trans hstep.1, ht.2.trans hstep.2⟩

/-- Entries that do not match the group id never record it in the dict. -/
theorem no_record_of_not_matches (gid : String) (l : AclEntries)
    (hA : ∀ a ∈ l, matchesGroupId gid a = false) :
    ∀ e ∈ l, 4 ≤ e.length → e.head? = some "group" → e.getD 1 "" ≠ gid := by
  intro e he hlen hhead hgid
  rcases entry_shape3 e (by omega) with ⟨a, b, c, t, rfl⟩
  have hm : matchesGroupId gid (a :: b :: c :: t) = true := by
    simp only [List.head?] at hhead
    simp only [List.getD] at hgid
    unfold matchesGroupId
    simp at hhead hgid ⊢
    exact ⟨hhead, by simpa using hgid⟩
  rw [hA _ he] at hm
  cases hm

/-- After the engine's write, the 4-field parser sees nothing for the
written group id: the front of the value does not match it and the new
entry has only three fields. -/
theorem parse_after_write (gid perm : String) (A : AclEntries)
    (hA : ∀ a ∈ A, matchesGroupId gid a = false) :
    dictGet (parseAclEntries (A ++ [["group", gid, perm]])) gid = ""
    ∧ dictHas (parseAclEntries (A ++ [["group", gid, perm]])) gid = false := by
  unfold parseAclEntries
  rw [List.foldl_append]
  have hnew : ([["group", gid, perm]].foldl parseFieldStep (A.foldl parseFieldStep []))
      = A.foldl parseFieldStep [] := by
    simp [parseFieldStep]
  rw [hnew]
  have := parse_foldl_ne A gid [] (no_record_of_not_matches gid A hA)
  exact ⟨this.1, this.2⟩

/-! ## One reconciliation of a path is idempotent -/

/-- Entries that do not match the group id pass the drop filter unchanged. -/
theorem dropGroupId_eq_self (gid : String) (l : AclEntries)
    (h : ∀ a ∈ l, matchesGroupId gid a = false) : dropGroupId gid l = l := by
  unfold dropGroupId
  rw [List.filter_eq_self]
  intro a ha
  simp [h a ha]

/-- Nothing in a dropped list matches the group id. -/
theorem not_matches_of_mem_dropGroupId (gid : String) (l : AclEntries) (a : Entry)
    (h : a ∈ dropGroupId gid l) : matchesGroupId gid a = false := by
  unfold dropGroupId at h
  have := (List.mem_filter.mp h).2
  simpa using this

/-- Dropping the group id from a non-matching front plus the new entry
gives back the front. -/
theorem dropGroupId_append_new (gid perm : String) (l : AclEntries)
    (h : ∀ a ∈ l, matchesGroupId gid a = false) :
    dropGroupId gid (l ++ [["group", gid, perm]]) = l := by
  unfold dropGroupId
  rw [List.filter_append]
  have h1 : ([["group", gid, perm]].filter fun a => ! matchesGroupId gid a) = [] := by
    simp [matchesGroupId_new]
  rw [h1, List.append_nil, List.filter_eq_self]
  intro a ha
  simp [h a ha]

/-- Updating twice is updating once. -/
theorem updatedAclsFor_idem (gid perm : String) (cur : AclEntries) :
    updatedAclsFor gid perm (updatedAclsFor gid perm cur) = updatedAclsFor gid perm cur := by
  rw [updatedAclsFor_eq gid perm cur,
    updatedAclsFor_eq gid perm (dropGroupId gid cur ++ [["group", gid, perm]]),
    dropGroupId_append_new gid perm _
      (fun a ha => not_matches_of_mem_dropGroupId gid cur a ha)]

/-- The merged value after a fired update: a deduplicated, non-matching
front `A` followed by the new entry. -/
theorem mergeEntries_updated_eq (gid perm : String) (cur : AclEntries) :
    mergeEntries cur (updatedAclsFor gid perm cur)
      = (dedupKeysLast (dropGroupId gid cur)).filter
          (fun a => ! (keyOf a == keyOf ["group", gid, perm]))
        ++ [["group", gid, perm]] := by
  rw [mergeEntries_eq, filter_keys_covered cur _ (keys_covered_by_updated gid perm cur),
    List.nil_append, updatedAclsFor_eq, dedupKeysLast_append_single]

/-- The front `A` never matches the group id. -/
theorem front_not_matches (gid perm : String) (cur : AclEntries) :
    ∀ a ∈ (dedupKeysLast (dropGroupId gid cur)).filter
        (fun a => ! (keyOf a == keyOf ["group", gid, perm])),
      matchesGroupId gid a = false := by
  intro a ha
  exact not_matches_of_mem_dropGroupId gid cur a
    (mem_of_mem_dedupKeysLast _ a (List.mem_of_mem_filter ha))

/-- Merging the update of a value of the shape the engine writes — a front
of pairwise-distinct keys avoiding the group id, then the new entry —
reproduces that value exactly. -/
theorem mergeEntries_self_stable (gid perm : String) (A : AclEntries)
    (hAnm : ∀ a ∈ A, matchesGroupId gid a = false)
    (hAk : ∀ a ∈ A, (keyOf a == keyOf ["group", gid, perm]) = false)
    (hnod : (keysOf A).Nodup) :
    mergeEntries (A ++ [["group", gid, perm]])
        (updatedAclsFor gid perm (A ++ [["group", gid, perm]]))
      = A ++ [["group", gid, perm]] := by
  rw [updatedAclsFor_eq, dropGroupId_append_new gid perm A hAnm, mergeEntries_eq,
    filter_keys_covered _ _ (fun a ha => List.mem_map_of_mem keyOf ha), List.nil_append,
    dedupKeysLast_append_single, dedupKeysLast_of_nodup_keys A hnod]
  congr 1
  rw [List.filter_eq_self]
  intro a ha
  simp [hAk a ha]

/-- Re-merging the value a fired update produced reproduces it exactly. -/
theorem mergeEntries_updated_idem (gid perm : String) (cur : AclEntries) :
    mergeEntries (mergeEntries cur (updatedAclsFor gid perm cur))
        (updatedAclsFor gid perm (mergeEntries cur (updatedAclsFor gid perm cur)))
      = mergeEntries cur (updatedAclsFor gid perm cur) := by
  rw [mergeEntries_updated_eq gid perm cur]
  refine mergeEntries_self_stable gid perm _ (front_not_matches gid perm cur) ?_ ?_
  · intro a ha
    have := (List.mem_filter.mp ha).2
    simpa using this
  · unfold keysOf
    refine List.Nodup.sublist ?_ (keysOf_dedupKeysLast_nodup (dropGroupId gid cur))
    exact (List.filter_sublist _).map keyOf

/-- `targetVal`, spelled out. -/
theorem targetVal_eq (gid aclPerm permRaw : String) (fu fp : Bool)
    (cur : Option AclEntries) :
    targetVal gid aclPerm permRaw fu fp cur
      = if should_update gid permRaw fu (cur.getD []) then
          (if fp = true then updatedAclsFor gid aclPerm (cur.getD [])
           else mergeEntries (cur.getD []) (updatedAclsFor gid aclPerm (cur.getD [])))
        else cur.getD [] := by
  simp only [targetVal]

/-- The fired-update value hides the group id from the 4-field parser, in
both propagation modes. -/
theorem parse_targetVal_none (gid aclPerm permRaw : String) (fu fp : Bool)
    (cur : Option AclEntries) (hsu : should_update gid permRaw fu (cur.getD [])) :
    dictGet (parseAclEntries (targetVal gid aclPerm permRaw fu fp cur)) gid = "" := by
  rw [targetVal_eq, if_pos hsu]
  by_cases hfp : fp = true
  · rw [if_pos hfp, updatedAclsFor_eq]
    exact (parse_after_write gid aclPerm _
      (fun a ha => not_matches_of_mem_dropGroupId gid _ a ha)).1
  · rw [if_neg hfp, mergeEntries_updated_eq]
    exact (parse_after_write gid aclPerm _ (front_not_matches gid aclPerm _)).1

/-- Reconciling the target value a reconciliation produced changes
nothing. -/
theorem targetVal_idem (gid aclPerm permRaw : String) (fu fp : Bool)
    (cur : Option AclEntries) :
    targetVal gid aclPerm permRaw fu fp (some (targetVal gid aclPerm permRaw fu fp cur))
      = targetVal gid aclPerm permRaw fu fp cur := by
  by_cases hsu : should_update gid permRaw fu (cur.getD [])
  · have hsu2 : should_update gid permRaw fu (targetVal gid aclPerm permRaw fu fp cur) :=
      Or.inr (Or.inl (parse_targetVal_none gid aclPerm permRaw fu fp cur hsu))
    rw [targetVal_eq gid aclPerm permRaw fu fp (some (targetVal gid aclPerm permRaw fu fp cur))]
    simp only [Option.getD_some]
    rw [if_pos hsu2]
    by_cases hfp : fp = true
    · rw [if_pos hfp]
      have h1 : targetVal gid aclPerm permRaw fu fp cur
          = updatedAclsFor gid aclPerm (cur.getD []) := by
        rw [targetVal_eq, if_pos hsu, if_pos hfp]
      rw [h1]
      exact updatedAclsFor_idem gid aclPerm (cur.getD [])
    · rw [if_neg hfp]
      have h1 : targetVal gid aclPerm permRaw fu fp cur
          = mergeEntries (cur.getD []) (updatedAclsFor gid aclPerm (cur.getD [])) := by
        rw [targetVal_eq, if_pos hsu, if_neg hfp]
      rw [h1]
      exact mergeEntries_updated_idem gid aclPerm (cur.getD [])
  · have hval : targetVal gid aclPerm permRaw fu fp cur = cur.getD [] := by
      rw [targetVal_eq, if_neg hsu]
    rw [hval, targetVal_eq]
    simp only [Option.getD_some]
    rw [if_neg hsu]

/-- `parentVal`, spelled out. -/
theorem parentVal_eq (envId : String) (fu : Bool) (cur : Option AclEntries) :
    parentVal envId fu cur
      = if ¬ dictHas (parseAclEntries (cur.getD [])) envId = true ∨ fu = true then
          updatedAclsFor envId "--x" (cur.getD [])
        else cur.getD [] := by
  simp only [parentVal]

/-- Reconciling the parent value a reconciliation produced changes
nothing. -/
theorem parentVal_idem (envId : String) (fu : Bool) (cur : Option AclEntries) :
    parentVal envId fu (some (parentVal envId fu cur)) = parentVal envId fu cur := by
  by_cases hc : ¬ dictHas (parseAclEntries (cur.getD [])) envId = true ∨ fu = true
  · have hval : parentVal envId fu cur
        = dropGroupId envId (cur.getD []) ++ [["group", envId, "--x"]] := by
      rw [parentVal_eq, if_pos hc, updatedAclsFor_eq]
    have hhas : dictHas (parseAclEntries (parentVal envId fu cur)) envId = false := by
      rw [hval]
      exact (parse_after_write envId "--x" _
        (fun a ha => not_matches_of_mem_dropGroupId envId _ a ha)).2
    have hc2 : ¬ dictHas (parseAclEntries
          ((some (parentVal envId fu cur)).getD [])) envId = true ∨ fu = true := by
      left
      simp [hhas]
    rw [parentVal_eq, if_pos hc2]
    simp only [Option.getD_some]
    rw [hval, updatedAclsFor_eq,
      dropGroupId_append_new envId "--x" _
        (fun a ha => not_matches_of_mem_dropGroupId envId _ a ha)]
  · have hval : parentVal envId fu cur = cur.getD [] := by
      rw [parentVal_eq, if_neg hc]
    rw [hval, parentVal_eq]
    simp only [Option.getD_some]
    rw [if_neg hc]

/-! ## Idempotence of a full run (C2) -/

/-- A run whose resolution fails returns the input untouched. -/
theorem apply_resolution_failure (row : Row) (graph : Graph) (fs : FS)
    (h : get_azure_ad_group_object_id row.group_name graph = none
       ∨ get_environment_group row.environment graph = none) :
    apply_acls_to_path row graph fs = ⟨fs, [], true⟩ := by
  rcases h with h | h
  · simp [apply_acls_to_path, h]
  · cases hg : get_azure_ad_group_object_id row.group_name graph with
    | none => simp [apply_acls_to_path, hg]
    | some gid => simp [apply_acls_to_path, hg, h]

/-- After a run, the target path stores `targetVal` of what it held
before. -/
theorem run_fsGet_rel (row : Row) (graph : Graph) (fs : FS) (gid envId : String)
    (hg : get_azure_ad_group_object_id row.group_name graph = some gid)
    (he : get_environment_group row.environment graph = some envId) :
    fsGet (apply_acls_to_path row graph fs).fs (relativePathOf row.path)
      = some (targetVal gid (parse_permission row.permission) row.permission
          (forceUpdateOf row) (forcePropagationOf row)
          (fsGet fs (relativePathOf row.path))) := by
  rw [apply_fs_eq row graph fs gid envId hg he,
    parentFold_fs_notMem _ _ _ _ _ _ (relativePathOf_notMem_parentPathsOf row.path),
    targetPhase_fs]
  simp

/-- After a run, every parent path stores `parentVal` of what it held
before. -/
theorem run_fsGet_parent (row : Row) (graph : Graph) (fs : FS) (gid envId : String)
    (hg : get_azure_ad_group_object_id row.group_name graph = some gid)
    (he : get_environment_group row.environment graph = some envId)
    (pp : String) (hpp : pp ∈ parentPathsOf row.path) :
    fsGet (apply_acls_to_path row graph fs).fs pp
      = some (parentVal envId (forceUpdateOf row) (fsGet fs pp)) := by
  rw [apply_fs_eq row graph fs gid envId hg he,
    parentFold_fs_mem _ _ _ _ _ _ (parentPathsOf_nodup row.path) hpp,
    targetPhase_fs]
  have hne : pp ≠ relativePathOf row.path := fun he' =>
    relativePathOf_notMem_parentPathsOf row.path (he' ▸ hpp)
  simp [hne]

/-- C2: applying the same request twice in sequence (with `forceUpdate`
false and no interleaved changes) leaves the ACL value of the target path
and of every ancestor path after the second application equal to the value
after the first. -/
theorem c2_idempotent (row : Row) (graph : Graph) (fs : FS)
    (_hfu : forceUpdateOf row = false) :
    fsGet (apply_acls_to_path row graph (apply_acls_to_path row graph fs).fs).fs
        (relativePathOf row.path)
      = fsGet (apply_acls_to_path row graph fs).fs (relativePathOf row.path)
    ∧ ∀ pp ∈ parentPathsOf row.path,
        fsGet (apply_acls_to_path row graph (apply_acls_to_path row graph fs).fs).fs pp
          = fsGet (apply_acls_to_path row graph fs).fs pp := by
  cases hg : get_azure_ad_group_object_id row.group_name graph with
  | none =>
    have h1 := apply_resolution_failure row graph fs (Or.inl hg)
    have h2 : (apply_acls_to_path row graph fs).fs = fs := by rw [h1]
    rw [h2, h1]
    exact ⟨rfl, fun pp _ => rfl⟩
  | some gid =>
    cases he : get_environment_group row.environment graph with
    | none =>
      have h1 := apply_resolution_failure row graph fs (Or.inr he)
      have h2 : (apply_acls_to_path row graph fs).fs = fs := by rw [h1]
      rw [h2, h1]
      exact ⟨rfl, fun pp _ => rfl⟩
    | some envId =>
      constructor
      · rw [run_fsGet_rel row graph ((apply_acls_to_path row graph fs).fs) gid envId hg he,
          run_fsGet_rel row graph fs gid envId hg he]
        exact congrArg some (targetVal_idem gid (parse_permission row.permission)
          row.permission (forceUpdateOf row) (forcePropagationOf row)
          (fsGet fs (relativePathOf row.path)))
      · intro pp hpp
        rw [run_fsGet_parent row graph ((apply_acls_to_path row graph fs).fs)
            gid envId hg he pp hpp,
          run_fsGet_parent row graph fs gid envId hg he pp hpp]
        exact congrArg some (parentVal_idem envId (forceUpdateOf row) (fsGet fs pp))

/-- Witness for C2 on the end-to-end scenario. -/
theorem c2_idempotent_witness :
    forceUpdateOf ⟨"dev", "sa", "data/team/reports", "gn", "W", "false", "false"⟩ = false
    ∧ (fsGet (apply_acls_to_path ⟨"dev", "sa", "data/team/reports", "gn", "W", "false", "false"⟩
          gnGraph
          (apply_acls_to_path ⟨"dev", "sa", "data/team/reports", "gn", "W", "false", "false"⟩
            gnGraph []).fs).fs
        (relativePathOf "data/team/reports")
      = fsGet (apply_acls_to_path ⟨"dev", "sa", "data/team/reports", "gn", "W", "false", "false"⟩
          gnGraph []).fs (relativePathOf "data/team/reports")
      ∧ ∀ pp ∈ parentPathsOf "data/team/reports",
          fsGet (apply_acls_to_path ⟨"dev", "sa", "data/team/reports", "gn", "W", "false", "false"⟩
              gnGraph
              (apply_acls_to_path
                ⟨"dev", "sa", "data/team/reports", "gn", "W", "false", "false"⟩
                gnGraph []).fs).fs pp
            = fsGet (apply_acls_to_path
                ⟨"dev", "sa", "data/team/reports", "gn", "W", "false", "false"⟩
                gnGraph []).fs pp) :=
  ⟨by decide,
   c2_idempotent ⟨"dev", "sa", "data/team/reports", "gn", "W", "false", "false"⟩
     gnGraph [] (by decide)⟩

/-! ## Monotonic read grants (C6) -/

/-- C6 counterexample: a Read request (permission `R`, `forceUpdate` false)
against a target whose parsed current grant for the group is none writes the
3-field entry `group:g1:r-x`, which the 4-field parser cannot read back: the
parsed post-state triplet is `""`, not `r-x` as the claim states. -/
theorem c6_read_grant_counterexample :
    dictGet (parseAclEntries ((fsGet fsWithEmptyAcl (relativePathOf readRow.path)).getD []))
        "g1" = ""
    ∧ forceUpdateOf readRow = false
    ∧ readRow.permission = "R"
    ∧ ["group", "g1", "r-x"]
        ∈ ((fsGet (apply_acls_to_path readRow gnGraph fsWithEmptyAcl).fs
            (relativePathOf readRow.path)).getD [])
    ∧ dictGet (parseAclEntries
        ((fsGet (apply_acls_to_path readRow gnGraph fsWithEmptyAcl).fs
            (relativePathOf readRow.path)).getD [])) "g1" ≠ "r-x" :=
  ⟨by decide, by decide, by decide, by decide, by decide⟩

/-- A write to the target path in the trace certifies the update policy. -/
theorem target_write_imp_su (row : Row) (graph : Graph) (fs : FS) (gid envId : String)
    (hg : get_azure_ad_group_object_id row.group_name graph = some gid)
    (he : get_environment_group row.environment graph = some envId)
    (a : AclEntries) (m : String)
    (h : Ev.write (relativePathOf row.path) a m ∈ (apply_acls_to_path row graph fs).events) :
    should_update gid row.permission (forceUpdateOf row)
      ((fsGet fs (relativePathOf row.path)).getD []) := by
  rw [apply_events_eq row graph fs gid envId hg he] at h
  rcases List.mem_append.mp h with h1 | h1
  · rcases List.mem_append.mp h1 with h2 | h2
    · have := isBackupEv_mem_backupEvsOf fs row.path _ h2
      simp [isBackupEv] at this
    · rw [targetPhase_events] at h2
      exact (write_mem_targetEvs _ _ _ _ _ _ _ _ _ _ h2).2.2.2
  · rcases parentFold_events_cases _ _ _ _ _ _ h1 with h2 | ⟨pp, hpp, cur, h2⟩
    · simp at h2
    · rcases write_mem_parentEvsOf _ _ _ _ _ _ _ h2 with ⟨hp, _, _⟩
      exact absurd (hp ▸ hpp) (relativePathOf_notMem_parentPathsOf row.path)

/-- C6 amended: for a Read request (permission `R`, `forceUpdate` false)
and a current grant read through the engine's 4-field parser: when the
parsed grant is `r-x` or `rwx` the target is left untouched and no target
write is issued — in particular an existing `rwx` grant is never reduced —
and when no parsed grant exists the engine writes the entry
`group:<id>:r-x`, which the 4-field parser does not read back, so the
parsed post-state grant stays none rather than becoming `r-x`. -/
theorem c6_monotonic_read_grant (row : Row) (graph : Graph) (fs : FS) (gid envId : String)
    (hg : get_azure_ad_group_object_id row.group_name graph = some gid)
    (he : get_environment_group row.environment graph = some envId)
    (hfu : forceUpdateOf row = false)
    (hR : row.permission = "R") :
    (dictGet (parseAclEntries ((fsGet fs (relativePathOf row.path)).getD [])) gid = "" →
      ∃ rest, fsGet (apply_acls_to_path row graph fs).fs (relativePathOf row.path)
          = some (rest ++ [["group", gid, "r-x"]])
        ∧ dictGet (parseAclEntries (rest ++ [["group", gid, "r-x"]])) gid = "")
    ∧ (dictGet (parseAclEntries ((fsGet fs (relativePathOf row.path)).getD [])) gid = "r-x"
        ∨ dictGet (parseAclEntries ((fsGet fs (relativePathOf row.path)).getD [])) gid = "rwx" →
      fsGet (apply_acls_to_path row graph fs).fs (relativePathOf row.path)
          = fsGet fs (relativePathOf row.path)
      ∧ ¬ ∃ a m, Ev.write (relativePathOf row.path) a m
            ∈ (apply_acls_to_path row graph fs).events) := by
  have hperm : parse_permission row.permission = "r-x" := by rw [hR]; decide
  constructor
  · intro hc
    have hsu : should_update gid row.permission (forceUpdateOf row)
        ((fsGet fs (relativePathOf row.path)).getD []) := Or.inr (Or.inl hc)
    rw [run_fsGet_rel row graph fs gid envId hg he, targetVal_eq, if_pos hsu, hperm]
    by_cases hfp : forcePropagationOf row = true
    · rw [if_pos hfp, updatedAclsFor_eq]
      exact ⟨dropGroupId gid ((fsGet fs (relativePathOf row.path)).getD []), rfl,
        (parse_after_write gid "r-x" _
          (fun a ha => not_matches_of_mem_dropGroupId gid _ a ha)).1⟩
    · rw [if_neg hfp, mergeEntries_updated_eq]
      exact ⟨_, rfl, (parse_after_write gid "r-x" _ (front_not_matches gid "r-x" _)).1⟩
  · intro hc
    have hcne : dictGet (parseAclEntries
        ((fsGet fs (relativePathOf row.path)).getD [])) gid ≠ "" := by
      rcases hc with hc | hc <;> rw [hc] <;> decide
    have hnsu : ¬ should_update gid row.permission (forceUpdateOf row)
        ((fsGet fs (relativePathOf row.path)).getD []) := by
      intro hsu
      rcases hsu with h1 | h1 | ⟨h1, _⟩
      · rw [hfu] at h1
        cases h1
      · exact hcne h1
      · rw [hR] at h1
        exact absurd h1 (by decide)
    constructor
    · rw [run_fsGet_rel row graph fs gid envId hg he, targetVal_eq, if_neg hnsu]
      cases hcur : fsGet fs (relativePathOf row.path) with
      | none =>
        rw [hcur] at hcne
        exact absurd rfl hcne
      | some t => rfl
    · rintro ⟨a, m, hmem⟩
      exact hnsu (target_write_imp_su row graph fs gid envId hg he a m hmem)

/-- Witness for C6 (amended) at a target already holding the parseable
`r-x`. -/
theorem c6_monotonic_read_grant_witness :
    get_azure_ad_group_object_id "gn" gnGraph = some "g1"
    ∧ get_environment_group "dev" gnGraph = some "e1"
    ∧ forceUpdateOf readRow = false
    ∧ readRow.permission = "R"
    ∧ ((dictGet (parseAclEntries ((fsGet fsWithRx (relativePathOf readRow.path)).getD []))
          "g1" = "" →
        ∃ rest, fsGet (apply_acls_to_path readRow gnGraph fsWithRx).fs
            (relativePathOf readRow.path) = some (rest ++ [["group", "g1", "r-x"]])
          ∧ dictGet (parseAclEntries (rest ++ [["group", "g1", "r-x"]])) "g1" = "")
      ∧ (dictGet (parseAclEntries ((fsGet fsWithRx (relativePathOf readRow.path)).getD []))
            "g1" = "r-x"
          ∨ dictGet (parseAclEntries ((fsGet fsWithRx (relativePathOf readRow.path)).getD []))
              "g1" = "rwx" →
        fsGet (apply_acls_to_path readRow gnGraph fsWithRx).fs (relativePathOf readRow.path)
            = fsGet fsWithRx (relativePathOf readRow.path)
        ∧ ¬ ∃ a m, Ev.write (relativePathOf readRow.path) a m
              ∈ (apply_acls_to_path readRow gnGraph fsWithRx).events)) :=
  ⟨by decide, by decide, by decide, by decide,
   c6_monotonic_read_grant readRow gnGraph fsWithRx "g1" "e1"
     (by decide) (by decide) (by decide) (by decide)⟩
